import Mathlib

/-!
Verification development for the `vtk` repository's finder package
(`internal/finder/finder.go` together with the symbol-search half of the
same package).  File contents are modelled as lists of characters (one
character per byte of the Go `[]byte`; offsets into a line are therefore
the byte offsets of the source for the ASCII data handled here), paths as
strings, and a compiled Go regular expression abstractly by the set of
positions at which a match starts.  The third-party gitignore matcher is
abstracted as a predicate on root-relative paths, exactly the interface
(`gi.MatchesPath`) through which `finder.go` consumes it.
-/

set_option maxHeartbeats 1000000

namespace VTK

/-- Go struct `finder.Result`: a single match in a file.  The Go field
`Match` (the matched line text, or the symbol name for symbol search) is
kept under the same name. -/
structure Result where
  Path : String
  Line : Int
  Column : Int
  Match : String
deriving DecidableEq, Repr

/-- Abstraction of a compiled Go regular expression (`regexp.Regexp`):
`matchesAt s i` holds when a match of the pattern starts at offset `i` of
`s`.  Go's leftmost-match functions are derived from it below. -/
structure Regexp where
  matchesAt : List Char → Nat → Bool

/-- Scan positions `start, start+1, …, start+fuel` for the first one where
the pattern matches (helper for the leftmost-match semantics of
`regexp.FindStringIndex`). -/
def scanFrom (re : Regexp) (s : List Char) : Nat → Nat → Option Nat
  | start, 0 => if re.matchesAt s start then some start else none
  | start, n + 1 => if re.matchesAt s start then some start else scanFrom re s (start + 1) n

/-- Go `re.FindStringIndex(s)` restricted to its first component: the
start offset of the leftmost match, scanning offsets `0 … s.length`. -/
def Regexp.findIndex (re : Regexp) (s : List Char) : Option Nat :=
  scanFrom re s 0 s.length

/-- Go `re.MatchString(s)`: some match exists. -/
def Regexp.matchString (re : Regexp) (s : List Char) : Bool :=
  (re.findIndex s).isSome

/-- Split on newline bytes the way Go `bytes.Split(content, []byte{10})`
does: `n` separators yield `n+1` pieces, and empty input yields one empty
piece. -/
def splitNL (l : List Char) : List (List Char) :=
  match l with
  | [] => [[]]
  | c :: rest =>
      let r := splitNL rest
      if c = '\n' then [] :: r
      else
        match r with
        | [] => [[c]]
        | h :: t => (c :: h) :: t

/-- The `dropCR` step of Go `bufio.ScanLines`: strip one trailing
carriage return from a scanned line. -/
def dropCR (l : List Char) : List Char :=
  if l.getLast? = some '\r' then l.dropLast else l

/-- The sequence of lines produced by a Go `bufio.Scanner` with the
default `ScanLines` split function: pieces between newlines, without a
final empty piece when the data ends in a newline (and no line at all for
empty data), each with one trailing `\r` stripped. -/
def scanLines (content : List Char) : List (List Char) :=
  let ps := splitNL content
  (if ps.getLast? = some [] then ps.dropLast else ps).map dropCR

/-- Loop body of Go `finder.searchFile`: scan the given lines starting at
line number `lineNum`, emitting one `Result` per line on which the
pattern matches, with the leftmost match's start offset as `Column` and
the whole line as `Match`. -/
def searchFileFrom (path : String) (re : Regexp) : Nat → List (List Char) → List Result
  | _, [] => []
  | lineNum, line :: rest =>
      (if re.matchString line then
        [{ Path := path, Line := (lineNum : Int),
           Column := ((re.findIndex line).getD 0 : Nat),
           Match := ⟨line⟩ }]
      else []) ++ searchFileFrom path re (lineNum + 1) rest

/-- Go `finder.searchFile` on a readable file's content. -/
def searchFile (path : String) (re : Regexp) (content : List Char) : List Result :=
  searchFileFrom path re 1 (scanLines content)

/-- Go `finder.IsBinaryFile`: a readable file is binary when a NUL byte
occurs among the first 512 bytes; an unreadable file reports `false`
(and so does an empty one, whose inspected prefix is empty). -/
def IsBinaryFile (readable : Bool) (content : List Char) : Bool :=
  readable && (content.take 512).contains (Char.ofNat 0)

/-- Go `finder.FormatEmacsOutput`: a `strings.Builder` fold appending
`path:line:column: match` plus a newline for each result in order. -/
def FormatEmacsOutput (results : List Result) : String :=
  results.foldl
    (fun output r =>
      output ++ (r.Path ++ ":" ++ toString r.Line ++ ":" ++ toString r.Column
        ++ ": " ++ r.Match ++ "\n"))
    ""

/-- A directory tree as seen by `filepath.Walk`: regular files carry
their content, and a `readable` flag records whether opening/reading the
entry would succeed. -/
inductive Entry where
  | file (name : String) (readable : Bool) (content : List Char)
  | dir (name : String) (readable : Bool) (entries : List Entry)
deriving Repr

/-- Name of an entry. -/
def Entry.name : Entry → String
  | .file n _ _ => n
  | .dir n _ _ => n

/-- Lexicographic byte-wise string comparison — the `≤` order of Go's
`sort.Strings`, written structurally over the character lists. -/
def charsLe : List Char → List Char → Bool
  | [], _ => true
  | _ :: _, [] => false
  | a :: as, b :: bs => if a < b then true else if b < a then false else charsLe as bs

/-- Insert an entry into a name-sorted list (helper realising the sorted
order in which `filepath.Walk`'s `readDirNames` reports a directory's
children). -/
def insertByName (e : Entry) : List Entry → List Entry
  | [] => [e]
  | f :: fs =>
      if charsLe e.name.data f.name.data then e :: f :: fs else f :: insertByName e fs

/-- A directory's children in the lexically sorted order used by
`filepath.Walk`. -/
def sortEntries : List Entry → List Entry
  | [] => []
  | e :: es => insertByName e (sortEntries es)

/-- The root-relative path string Go obtains from `filepath.Rel(dir,
path)`: `"."` for the root itself, otherwise the slash-joined chain of
names leading to the entry. -/
def relOf : List String → String
  | [] => "."
  | [c] => c
  | c :: cs => c ++ "/" ++ relOf cs

/-- The absolute path `filepath.Walk` hands to the walk function:
`filepath.Join` of the root directory and the relative components. -/
def fullPath (root : String) (comps : List String) : String :=
  match comps with
  | [] => root
  | _ => root ++ "/" ++ relOf comps

/-- Evaluate the (possibly absent) gitignore matcher on a relative path:
`gi != nil && gi.MatchesPath(relPath)`. -/
def giMatch : Option (String → Bool) → String → Bool
  | none, _ => false
  | some g, p => g p

/-- Go `filepath.Walk` specialised to the walk functions of this package:
the walk function returns, for each visited entry, the results it
appends and (for directories) whether it answers `filepath.SkipDir`.  A
directory that cannot be read is reported to the walk function with an
error, which both walk functions in this package answer with `nil`, so
its subtree is skipped; children of a readable directory are visited in
sorted name order unless the walk function pruned the directory. -/
def walkGo (fn : List String → Entry → List Result × Bool) :
    Entry → List String → List Result
  | .file n rd c, comps => (fn comps (.file n rd c)).1
  | .dir n rd es, comps =>
      if rd then
        let ret := fn comps (.dir n rd es)
        ret.1 ++
          (if ret.2 then []
           else ((sortEntries es).attach.map
             (fun c => walkGo fn c.1 (comps ++ [c.1.name]))).flatten)
      else []
termination_by e _ => sizeOf e
decreasing_by
  simp only [Entry.dir.sizeOf_spec]
  have h1 : ∀ (x e : Entry) (l : List Entry), x ∈ insertByName e l → x = e ∨ x ∈ l := by
    intro x e l
    induction l with
    | nil =>
        intro h
        simp only [insertByName, List.mem_singleton] at h
        exact Or.inl h
    | cons f fs ih =>
        intro h
        simp only [insertByName] at h
        split at h
        · rcases List.mem_cons.mp h with h' | h'
          · exact Or.inl h'
          · exact Or.inr h'
        · rcases List.mem_cons.mp h with h' | h'
          · exact Or.inr (List.mem_cons.mpr (Or.inl h'))
          · rcases ih h' with h2 | h2
            · exact Or.inl h2
            · exact Or.inr (List.mem_cons.mpr (Or.inr h2))
  have h2 : ∀ (x : Entry) (l : List Entry), x ∈ sortEntries l → x ∈ l := by
    intro x l
    induction l with
    | nil =>
        intro h
        simp [sortEntries] at h
    | cons e l2 ih =>
        intro h
        simp only [sortEntries] at h
        rcases h1 x e (sortEntries l2) h with h' | h'
        · exact List.mem_cons.mpr (Or.inl h')
        · exact List.mem_cons.mpr (Or.inr (ih h'))
  have h3 := List.sizeOf_lt_of_mem (h2 c.1 es c.2)
  omega

/-- The per-file walk function of `finder.Find`: directories answer
`SkipDir` when their non-`"."` relative path is gitignore-matched; a file
is skipped when ignored, binary, or unreadable, and otherwise contributes
its `searchFile` results. -/
def findWalkFn (gi : Option (String → Bool)) (re : Regexp) (root : String)
    (comps : List String) (e : Entry) : List Result × Bool :=
  match e with
  | .dir _ _ _ => ([], !comps.isEmpty && giMatch gi (relOf comps))
  | .file _ readable content =>
      if giMatch gi (relOf comps) then ([], false)
      else if IsBinaryFile readable content then ([], false)
      else if readable then (searchFile (fullPath root comps) re content, false)
      else ([], false)

/-- Go `finder.Find`.  The compiled pattern is `none` when
`regexp.Compile` fails, `rootExists` is the `os.Stat`/`os.IsNotExist`
check on the root, and `gi` is the loaded gitignore matcher (or `none`).
Error strings model the fixed texts of the two `fmt.Errorf` calls. -/
def Find (compiled : Option Regexp) (rootExists : Bool) (root : String)
    (gi : Option (String → Bool)) (tree : Entry) : Except String (List Result) :=
  match compiled with
  | none => .error ("invalid regex pattern")
  | some re =>
      if rootExists then .ok (walkGo (findWalkFn gi re root) tree [])
      else .error ("directory does not exist: " ++ root)

/-- Go `\s` inside the package's patterns: `[\t\n\f\r ]`. -/
def isGoSpace (c : Char) : Bool :=
  c = ' ' || c = '\t' || c = '\n' || c = Char.ofNat 12 || c = '\r'

/-- Go `\w`: `[0-9A-Za-z_]`. -/
def isWordChar (c : Char) : Bool := c.isAlphanum || c = '_'

/-- Match a literal at the head of the input, returning the rest. -/
def stripLit (s : String) (l : List Char) : Option (List Char) :=
  if s.data.isPrefixOf l then some (l.drop s.data.length) else none

/-- Case-insensitive variant of `stripLit` (the `(?i)` SQL patterns). -/
def stripCIChars : List Char → List Char → Option (List Char)
  | [], l => some l
  | _ :: _, [] => none
  | p :: ps, c :: cs => if c.toLower = p.toLower then stripCIChars ps cs else none

/-- Strip a literal ignoring case. -/
def stripCI (s : String) (l : List Char) : Option (List Char) :=
  stripCIChars s.data l

/-- The regex fragment `\s+`: at least one space, then greedily all. -/
def dropSpaces1 (l : List Char) : Option (List Char) :=
  match l with
  | [] => none
  | c :: rest => if isGoSpace c then some (rest.dropWhile isGoSpace) else none

/-- The regex fragment `(\w+)`: a nonempty maximal word run (maximality
is forced in every pattern below because the run is always followed by a
non-word requirement). -/
def word1 (l : List Char) : Option (List Char × List Char) :=
  match l.takeWhile isWordChar with
  | [] => none
  | w => some (w, l.dropWhile isWordChar)

/-- An optional regex group `(?:kw\s+)?`: consume the keyword and the
following spaces when both are present, otherwise leave the input
unchanged (no other backtracking can succeed for the patterns below,
since the literal that follows the group never matches at the keyword). -/
def tryStripKw (kw : String) (l : List Char) : List Char :=
  match stripLit kw l with
  | none => l
  | some r =>
      match dropSpaces1 r with
      | none => l
      | some r2 => r2

/-- Position of the first occurrence of `nee` at or after `start` in
`hay`, scanning `fuel + 1` positions (helper for `bytes.Index` and
`bytes.Contains`). -/
def subFrom (hay nee : List Char) : Nat → Nat → Option Nat
  | start, 0 => if nee.isPrefixOf (hay.drop start) then some start else none
  | start, n + 1 =>
      if nee.isPrefixOf (hay.drop start) then some start
      else subFrom hay nee (start + 1) n

/-- Go `bytes.Index`: first occurrence offset, `-1` when absent. -/
def bytesIndex (hay nee : List Char) : Int :=
  match subFrom hay nee 0 hay.length with
  | some i => (i : Int)
  | none => -1

/-- Go `bytes.Contains`. -/
def hasSub (hay nee : List Char) : Bool :=
  (subFrom hay nee 0 hay.length).isSome

/-- Go struct `finder.Symbol`. -/
structure Symbol where
  Name : String
  Line : Int
  Column : Int
  Kind : String
deriving DecidableEq, Repr

/-- Build the symbol record each recognizer appends: name from the
capture group, 1-based line, column from `bytes.Index(line, name)`. -/
def mkSymbol (line : List Char) (i : Nat) (name : List Char) (kind : String) : Symbol :=
  { Name := ⟨name⟩, Line := (i : Int) + 1, Column := bytesIndex line name, Kind := kind }

/-- The Go pattern `^\s*func\s+(?:\([^)]+\)\s+)?(\w+)\s*\(` as a
deterministic matcher returning the capture.  The receiver group is
forced: `[^)]+` cannot cross the first `)`, and when the group fails the
alternative `(\w+)` cannot match at `(` either. -/
def goFuncCapture (l : List Char) : Option (List Char) :=
  match stripLit ("func") (l.dropWhile isGoSpace) with
  | none => none
  | some r =>
      match dropSpaces1 r with
      | none => none
      | some r2 =>
          match (match r2 with
            | '(' :: rest =>
                match rest.takeWhile (fun c => c != ')') with
                | [] => none
                | _ :: _ =>
                    match rest.dropWhile (fun c => c != ')') with
                    | ')' :: r4 => dropSpaces1 r4
                    | _ => none
            | _ => some r2) with
          | none => none
          | some r3 =>
              match word1 r3 with
              | none => none
              | some (w, r5) =>
                  match r5.dropWhile isGoSpace with
                  | '(' :: _ => some w
                  | _ => none

/-- The Go pattern `^\s*type\s+(\w+)\s+(?:struct|interface)`. -/
def goTypeCapture (l : List Char) : Option (List Char) :=
  match stripLit ("type") (l.dropWhile isGoSpace) with
  | none => none
  | some r =>
      match dropSpaces1 r with
      | none => none
      | some r2 =>
          match word1 r2 with
          | none => none
          | some (w, r3) =>
              match dropSpaces1 r3 with
              | none => none
              | some r4 =>
                  if ("struct").data.isPrefixOf r4 || ("interface").data.isPrefixOf r4
                  then some w else none

/-- The Go pattern `^\s*(?:const|var)\s+(\w+)`. -/
def goVarCapture (l : List Char) : Option (List Char) :=
  match (match stripLit ("const") (l.dropWhile isGoSpace) with
         | some r => some r
         | none => stripLit ("var") (l.dropWhile isGoSpace)) with
  | none => none
  | some r =>
      match dropSpaces1 r with
      | none => none
      | some r2 =>
          match word1 r2 with
          | none => none
          | some (w, _) => some w

/-- One line of `extractGoSymbols`: the three category checks in source
order. -/
def goLineSymbols (i : Nat) (line : List Char) : List Symbol :=
  (match goFuncCapture line with
   | some w => [mkSymbol line i w ("function")]
   | none => []) ++
  (match goTypeCapture line with
   | some w => [mkSymbol line i w ("type")]
   | none => []) ++
  (match goVarCapture line with
   | some w => [mkSymbol line i w ("variable")]
   | none => [])

/-- Go `finder.extractGoSymbols`: `bytes.Split` on newlines, then the
per-line category checks. -/
def extractGoSymbols (content : List Char) : List Symbol :=
  ((splitNL content).enum.map (fun p => goLineSymbols p.1 p.2)).flatten

/-- The JS pattern `^\s*(?:export\s+)?(?:async\s+)?function\s+(\w+)\s*\(`. -/
def jsFuncCapture (l : List Char) : Option (List Char) :=
  match stripLit ("function")
      (tryStripKw ("async") (tryStripKw ("export") (l.dropWhile isGoSpace))) with
  | none => none
  | some r2 =>
      match dropSpaces1 r2 with
      | none => none
      | some r3 =>
          match word1 r3 with
          | none => none
          | some (w, r4) =>
              match r4.dropWhile isGoSpace with
              | '(' :: _ => some w
              | _ => none

/-- The JS pattern `^\s*(?:export\s+)?class\s+(\w+)`. -/
def jsClassCapture (l : List Char) : Option (List Char) :=
  match stripLit ("class") (tryStripKw ("export") (l.dropWhile isGoSpace)) with
  | none => none
  | some r2 =>
      match dropSpaces1 r2 with
      | none => none
      | some r3 =>
          match word1 r3 with
          | none => none
          | some (w, _) => some w

/-- The JS pattern `^\s*(?:export\s+)?(?:const|let|var)\s+(\w+)`. -/
def jsVarCapture (l : List Char) : Option (List Char) :=
  match (match stripLit ("const") (tryStripKw ("export") (l.dropWhile isGoSpace)) with
         | some r2 => some r2
         | none =>
             match stripLit ("let") (tryStripKw ("export") (l.dropWhile isGoSpace)) with
             | some r2 => some r2
             | none => stripLit ("var") (tryStripKw ("export") (l.dropWhile isGoSpace))) with
  | none => none
  | some r2 =>
      match dropSpaces1 r2 with
      | none => none
      | some r3 =>
          match word1 r3 with
          | none => none
          | some (w, _) => some w

/-- The JS pattern `^\s*(\w+)\s*\([^)]*\)\s*\x7b` (a word, an argument
list that cannot contain `)`, then an opening brace). -/
def jsMethodCapture (l : List Char) : Option (List Char) :=
  match word1 (l.dropWhile isGoSpace) with
  | none => none
  | some (w, r2) =>
      match r2.dropWhile isGoSpace with
      | '(' :: rest =>
          match rest.dropWhile (fun c => c != ')') with
          | ')' :: r4 =>
              match r4.dropWhile isGoSpace with
              | '{' :: _ => some w
              | _ => none
          | _ => none
      | _ => none

/-- One line of `extractJSSymbols`: the four category checks in source
order; the method check is suppressed on lines containing the word
`function` (Go: `bytes.Contains(line, []byte("function"))`). -/
def jsLineSymbols (i : Nat) (line : List Char) : List Symbol :=
  (match jsFuncCapture line with
   | some w => [mkSymbol line i w ("function")]
   | none => []) ++
  (match jsClassCapture line with
   | some w => [mkSymbol line i w ("class")]
   | none => []) ++
  (match jsVarCapture line with
   | some w => [mkSymbol line i w ("variable")]
   | none => []) ++
  (match jsMethodCapture line with
   | some w =>
       if hasSub line ("function").data then []
       else [mkSymbol line i w ("method")]
   | none => [])

/-- Go `finder.extractJSSymbols`. -/
def extractJSSymbols (content : List Char) : List Symbol :=
  ((splitNL content).enum.map (fun p => jsLineSymbols p.1 p.2)).flatten

/-- The Python pattern `^\s*def\s+(\w+)\s*\(`. -/
def pyFuncCapture (l : List Char) : Option (List Char) :=
  match stripLit ("def") (l.dropWhile isGoSpace) with
  | none => none
  | some r =>
      match dropSpaces1 r with
      | none => none
      | some r2 =>
          match word1 r2 with
          | none => none
          | some (w, r3) =>
              match r3.dropWhile isGoSpace with
              | '(' :: _ => some w
              | _ => none

/-- The Python pattern `^\s*class\s+(\w+)`. -/
def pyClassCapture (l : List Char) : Option (List Char) :=
  match stripLit ("class") (l.dropWhile isGoSpace) with
  | none => none
  | some r =>
      match dropSpaces1 r with
      | none => none
      | some r2 =>
          match word1 r2 with
          | none => none
          | some (w, _) => some w

/-- The Python pattern `^(\w+)\s*=` (no leading whitespace allowed). -/
def pyVarCapture (l : List Char) : Option (List Char) :=
  match word1 l with
  | none => none
  | some (w, r2) =>
      match r2.dropWhile isGoSpace with
      | '=' :: _ => some w
      | _ => none

/-- One line of `extractPythonSymbols`; note the variable category
hard-codes `Column: 0` in the source. -/
def pyLineSymbols (i : Nat) (line : List Char) : List Symbol :=
  (match pyFuncCapture line with
   | some w => [mkSymbol line i w ("function")]
   | none => []) ++
  (match pyClassCapture line with
   | some w => [mkSymbol line i w ("class")]
   | none => []) ++
  (match pyVarCapture line with
   | some w => [{ Name := ⟨w⟩, Line := (i : Int) + 1, Column := 0, Kind := "variable" }]
   | none => [])

/-- Go `finder.extractPythonSymbols`. -/
def extractPythonSymbols (content : List Char) : List Symbol :=
  ((splitNL content).enum.map (fun p => pyLineSymbols p.1 p.2)).flatten

/-- Shared shape of the SQL patterns `(?i)^\s*CREATE\s+KW\s+(\w+)`. -/
def sqlKwCapture (kw : String) (l : List Char) : Option (List Char) :=
  match stripCI ("CREATE") (l.dropWhile isGoSpace) with
  | none => none
  | some r =>
      match dropSpaces1 r with
      | none => none
      | some r2 =>
          match stripCI kw r2 with
          | none => none
          | some r3 =>
              match dropSpaces1 r3 with
              | none => none
              | some r4 =>
                  match word1 r4 with
                  | none => none
                  | some (w, _) => some w

/-- The SQL pattern `(?i)^\s*CREATE\s+(?:FUNCTION|PROCEDURE)\s+(\w+)`. -/
def sqlFuncCapture (l : List Char) : Option (List Char) :=
  match sqlKwCapture ("FUNCTION") l with
  | some w => some w
  | none => sqlKwCapture ("PROCEDURE") l

/-- One line of `extractSQLSymbols`: table, function, view checks in
source order. -/
def sqlLineSymbols (i : Nat) (line : List Char) : List Symbol :=
  (match sqlKwCapture ("TABLE") line with
   | some w => [mkSymbol line i w ("table")]
   | none => []) ++
  (match sqlFuncCapture line with
   | some w => [mkSymbol line i w ("function")]
   | none => []) ++
  (match sqlKwCapture ("VIEW") line with
   | some w => [mkSymbol line i w ("view")]
   | none => [])

/-- Go `finder.extractSQLSymbols`. -/
def extractSQLSymbols (content : List Char) : List Symbol :=
  ((splitNL content).enum.map (fun p => sqlLineSymbols p.1 p.2)).flatten

/-- Scan a reversed path for `filepath.Ext`: walk from the end toward the
first separator, returning the suffix from the last dot (helper). -/
def extLoop : List Char → List Char → List Char
  | [], _ => []
  | c :: rest, acc =>
      if c = '/' then []
      else if c = '.' then c :: acc
      else extLoop rest (c :: acc)

/-- Go `filepath.Ext`: the suffix starting at the final dot of the last
path element, empty when there is none. -/
def filepathExt (p : String) : String :=
  ⟨extLoop p.data.reverse []⟩

/-- Go `finder.IsSupportedSymbolFile`: the closed extension dispatch set. -/
def IsSupportedSymbolFile (filename : String) : Bool :=
  match filepathExt filename with
  | ".go" | ".ts" | ".tsx" | ".js" | ".jsx" | ".py" | ".sql" => true
  | _ => false

/-- Go `finder.extractSymbols`: extension-keyed dispatch to the four
language-family recognizers (the content is available only for readable
files; the caller skips unreadable ones). -/
def extractSymbols (ext : String) (content : List Char) : List Symbol :=
  match ext with
  | ".go" => extractGoSymbols content
  | ".ts" | ".tsx" | ".js" | ".jsx" => extractJSSymbols content
  | ".py" => extractPythonSymbols content
  | ".sql" => extractSQLSymbols content
  | _ => []

/-- The per-symbol filtering loop of `finder.FindSymbols`: the caller's
pattern is matched against each symbol's name, and hits are reported
with the symbol's line, column and name. -/
def symFileResults (path : String) (re : Regexp) (content : List Char) : List Result :=
  (extractSymbols (filepathExt path) content).filterMap (fun s =>
    if re.matchString s.Name.data then
      some { Path := path, Line := s.Line, Column := s.Column, Match := s.Name }
    else none)

/-- The per-file walk function of `finder.FindSymbols`: the supported
extension gate runs before the gitignore check; unreadable files are
skipped. -/
def symWalkFn (gi : Option (String → Bool)) (re : Regexp) (root : String)
    (comps : List String) (e : Entry) : List Result × Bool :=
  match e with
  | .dir _ _ _ => ([], !comps.isEmpty && giMatch gi (relOf comps))
  | .file _ readable content =>
      if !IsSupportedSymbolFile (fullPath root comps) then ([], false)
      else if giMatch gi (relOf comps) then ([], false)
      else if readable then (symFileResults (fullPath root comps) re content, false)
      else ([], false)

/-- Go `finder.FindSymbols`, with the same modelling conventions as
`Find`. -/
def FindSymbols (compiled : Option Regexp) (rootExists : Bool) (root : String)
    (gi : Option (String → Bool)) (tree : Entry) : Except String (List Result) :=
  match compiled with
  | none => .error ("invalid regex pattern")
  | some re =>
      if rootExists then .ok (walkGo (symWalkFn gi re root) tree [])
      else .error ("directory does not exist: " ++ root)

/-! ### Generic list and string helpers -/

/-- Concrete regular expression used by witnesses: a literal-substring
pattern, matching wherever the literal occurs. -/
def reLit (pat : String) : Regexp :=
  ⟨fun s k => pat.data.isPrefixOf (s.drop k)⟩

/-- The entry (if any) reached from `e` by following the given chain of
child names; stated as a relation so trees with duplicate sibling names
are covered as well. -/
inductive Subtree : Entry → List String → Entry → Prop where
  | refl (e : Entry) : Subtree e [] e
  | step {n : String} {rd : Bool} {es : List Entry} {c : Entry}
      {rest : List String} {e' : Entry} :
      c ∈ es → Subtree c rest e' → Subtree (.dir n rd es) (c.name :: rest) e'

/-- A name a real directory listing can report: nonempty, slash-free and
distinct from `"."`. -/
def goodName (s : String) : Bool :=
  !(s == "") && !(s.data.contains '/') && !(s == ".")

/-- Sibling names are pairwise distinct. -/
def namesNodup : List Entry → Bool
  | [] => true
  | e :: es => !((es.map Entry.name).contains e.name) && namesNodup es

mutual
/-- Every name in the tree is a `goodName` and siblings have distinct
names — the shape every real directory tree satisfies. -/
def namesOk : Entry → Bool
  | .file n _ _ => goodName n
  | .dir n _ es => goodName n && namesNodup es && namesOkList es
termination_by e => sizeOf e
decreasing_by
  simp only [Entry.dir.sizeOf_spec]
  omega

/-- List form of `namesOk`. -/
def namesOkList : List Entry → Bool
  | [] => true
  | e :: es => namesOk e && namesOkList es
termination_by es => sizeOf es
decreasing_by
  all_goals simp
  all_goals omega
end

/-- Strict lexicographic byte-wise string comparison (companion of
`charsLe`). -/
def charsLt : List Char → List Char → Bool
  | [], [] => false
  | [], _ :: _ => true
  | _ :: _, [] => false
  | a :: as, b :: bs => if a < b then true else if b < a then false else charsLt as bs

/-- The order in which `filepath.Walk` reaches two distinct files, as a
relation on their component chains: the first differing component
decides, byte-lexicographically. -/
def dfsLtB : List String → List String → Bool
  | a :: as, b :: bs => if a = b then dfsLtB as bs else charsLt a.data b.data
  | _, _ => false

/-- The sequence of files `Find`'s walk would hand to `searchFile`, in
walk order, with the filters of `Find`'s walk function applied:
gitignore, binary detection, readability. -/
def findFiles (gi : Option (String → Bool)) : Entry → List String → List (List String × List Char)
  | .file _ rd content, comps =>
      if giMatch gi (relOf comps) then []
      else if IsBinaryFile rd content then []
      else if rd then [(comps, content)] else []
  | .dir _ rd es, comps =>
      if rd then
        if !comps.isEmpty && giMatch gi (relOf comps) then []
        else ((sortEntries es).attach.map
          (fun c => findFiles gi c.1 (comps ++ [c.1.name]))).flatten
      else []
termination_by e _ => sizeOf e
decreasing_by
  simp only [Entry.dir.sizeOf_spec]
  have h1 : ∀ (x e : Entry) (l : List Entry), x ∈ insertByName e l → x = e ∨ x ∈ l := by
    intro x e l
    induction l with
    | nil =>
        intro h
        simp only [insertByName, List.mem_singleton] at h
        exact Or.inl h
    | cons f fs ih =>
        intro h
        simp only [insertByName] at h
        split at h
        · rcases List.mem_cons.mp h with h' | h'
          · exact Or.inl h'
          · exact Or.inr h'
        · rcases List.mem_cons.mp h with h' | h'
          · exact Or.inr (List.mem_cons.mpr (Or.inl h'))
          · rcases ih h' with h2 | h2
            · exact Or.inl h2
            · exact Or.inr (List.mem_cons.mpr (Or.inr h2))
  have h2 : ∀ (x : Entry) (l : List Entry), x ∈ sortEntries l → x ∈ l := by
    intro x l
    induction l with
    | nil =>
        intro h
        simp [sortEntries] at h
    | cons e l2 ih =>
        intro h
        simp only [sortEntries] at h
        rcases h1 x e (sortEntries l2) h with h' | h'
        · exact List.mem_cons.mpr (Or.inl h')
        · exact List.mem_cons.mpr (Or.inr (ih h'))
  have h3 := List.sizeOf_lt_of_mem (h2 c.1 es c.2)
  omega

theorem mem_insertByName {c e : Entry} {l : List Entry} :
    c ∈ insertByName e l ↔ c = e ∨ c ∈ l := by
  induction l with
  | nil => simp [insertByName]
  | cons f fs ih =>
      simp only [insertByName]
      split
      · simp [List.mem_cons]
      · simp only [List.mem_cons, ih]
        tauto

theorem mem_sortEntries {c : Entry} {es : List Entry} :
    c ∈ sortEntries es ↔ c ∈ es := by
  induction es with
  | nil => simp [sortEntries]
  | cons e es ih => simp [sortEntries, mem_insertByName, ih]

theorem sizeOf_lt_of_mem_sortEntries {c : Entry} {es : List Entry}
    (h : c ∈ sortEntries es) : sizeOf c < 1 + sizeOf es := by
  have hmem : c ∈ es := mem_sortEntries.mp h
  have := List.sizeOf_lt_of_mem hmem
  omega

theorem isPrefixOf_exists {s l : List Char} (h : s.isPrefixOf l = true) :
    ∃ t, s ++ t = l := by
  induction s generalizing l with
  | nil => exact ⟨l, rfl⟩
  | cons a as ih =>
      cases l with
      | nil => simp [List.isPrefixOf] at h
      | cons b bs =>
          simp only [List.isPrefixOf, Bool.and_eq_true, beq_iff_eq] at h
          obtain ⟨t, ht⟩ := ih h.2
          exact ⟨t, by simp [h.1, ht]⟩

theorem exists_isPrefixOf {s l t : List Char} (h : s ++ t = l) :
    s.isPrefixOf l = true := by
  induction s generalizing l with
  | nil => cases l <;> simp [List.isPrefixOf]
  | cons a as ih =>
      cases l with
      | nil => simp at h
      | cons b bs =>
          simp only [List.cons_append, List.cons.injEq] at h
          simp [List.isPrefixOf, h.1, ih h.2]

theorem stripLit_eq {s : String} {l r : List Char} (h : stripLit s l = some r) :
    l = s.data ++ r := by
  unfold stripLit at h
  split at h
  · next hp =>
      obtain ⟨t, ht⟩ := isPrefixOf_exists hp
      cases h
      rw [← ht, List.drop_append_of_le_length (by simp), List.drop_length, List.nil_append]
  · cases h

theorem stripLit_of_eq {s : String} {l r : List Char} (h : l = s.data ++ r) :
    stripLit s l = some r := by
  subst h
  unfold stripLit
  rw [if_pos (exists_isPrefixOf rfl)]
  rw [List.drop_append_of_le_length (by simp), List.drop_length, List.nil_append]

/-! ### Claim C9: the result renderer -/

theorem formatEmacs_foldl (rs : List Result) (acc : String) :
    rs.foldl
      (fun output r =>
        output ++ (r.Path ++ ":" ++ toString r.Line ++ ":" ++ toString r.Column
          ++ ": " ++ r.Match ++ "\n")) acc =
    acc ++ rs.foldr
      (fun r tail =>
        (r.Path ++ ":" ++ toString r.Line ++ ":" ++ toString r.Column
          ++ ": " ++ r.Match ++ "\n") ++ tail) "" := by
  induction rs generalizing acc with
  | nil => simp
  | cons r rest ih =>
      simp only [List.foldl_cons, List.foldr_cons, ih]
      apply String.ext
      simp [String.data_append, List.append_assoc]

/-- Claim C9: `FormatEmacsOutput` renders any sequence of match records
as the in-order concatenation of one `path:line:column: matchedText`
line per record, each terminated by a newline (so no re-sorting and no
de-duplication can occur), and renders the empty sequence as the empty
string. -/
theorem formatEmacsOutput_spec :
    (∀ rs : List Result,
      FormatEmacsOutput rs =
        rs.foldr
          (fun r tail =>
            (r.Path ++ ":" ++ toString r.Line ++ ":" ++ toString r.Column
              ++ ": " ++ r.Match ++ "\n") ++ tail) "") ∧
    FormatEmacsOutput [] = "" := by
  constructor
  · intro rs
    have := formatEmacs_foldl rs ""
    unfold FormatEmacsOutput
    rw [this]
    apply String.ext
    simp [String.data_append]
  · rfl

/-! ### Claim C4: the error contract of both search operations -/

/-- Claim C4: `Find` and `FindSymbols` fail exactly when the pattern does
not compile or the root directory does not exist; an uncompilable
pattern produces its error independently of the root, the ignore rules
and the entire tree (it is detected before any traversal), and an error
result carries no match records by construction of `Except`. -/
theorem find_error_contract :
    (∀ (compiled : Option Regexp) (rootExists : Bool) (root : String)
        (gi : Option (String → Bool)) (tree : Entry),
        (∃ msg, Find compiled rootExists root gi tree = .error msg) ↔
          compiled = none ∨ rootExists = false) ∧
    (∀ (compiled : Option Regexp) (rootExists : Bool) (root : String)
        (gi : Option (String → Bool)) (tree : Entry),
        (∃ msg, FindSymbols compiled rootExists root gi tree = .error msg) ↔
          compiled = none ∨ rootExists = false) ∧
    (∀ (b b' : Bool) (root root' : String) (gi gi' : Option (String → Bool))
        (tree tree' : Entry),
        Find none b root gi tree = Find none b' root' gi' tree') ∧
    (∀ (b b' : Bool) (root root' : String) (gi gi' : Option (String → Bool))
        (tree tree' : Entry),
        FindSymbols none b root gi tree = FindSymbols none b' root' gi' tree') := by
  refine ⟨?_, ?_, ?_, ?_⟩
  · rintro (_ | re) (_ | _) root gi tree <;> simp [Find]
  · rintro (_ | re) (_ | _) root gi tree <;> simp [FindSymbols]
  · intros; rfl
  · intros; rfl

/-! ### Claim C1: the line scanner -/

theorem scanFrom_some {re : Regexp} {s : List Char} :
    ∀ {fuel start c}, scanFrom re s start fuel = some c →
      re.matchesAt s c = true ∧ start ≤ c ∧
      ∀ j, start ≤ j → j < c → re.matchesAt s j = false := by
  intro fuel
  induction fuel with
  | zero =>
      intro start c h
      by_cases hm : re.matchesAt s start = true
      · simp only [scanFrom, hm, if_true, Option.some.injEq] at h
        subst h
        exact ⟨hm, le_refl _, fun j h1 h2 => absurd h1 (by omega)⟩
      · simp [scanFrom, hm] at h
  | succ n ih =>
      intro start c h
      by_cases hm : re.matchesAt s start = true
      · simp only [scanFrom, hm, if_true, Option.some.injEq] at h
        subst h
        exact ⟨hm, le_refl _, fun j h1 h2 => absurd h1 (by omega)⟩
      · simp only [scanFrom, hm, if_false, Bool.false_eq_true] at h
        obtain ⟨h1, h2, h3⟩ := ih h
        refine ⟨h1, by omega, fun j hj1 hj2 => ?_⟩
        rcases Nat.eq_or_lt_of_le hj1 with rfl | hlt
        · simpa using hm
        · exact h3 j (by omega) hj2

theorem findIndex_first {re : Regexp} {s : List Char} {c : Nat}
    (h : re.findIndex s = some c) :
    re.matchesAt s c = true ∧ ∀ j, re.matchesAt s j = true → c ≤ j := by
  obtain ⟨h1, _, h3⟩ := scanFrom_some h
  refine ⟨h1, fun j hj => ?_⟩
  by_contra hcon
  have : re.matchesAt s j = false := h3 j (by omega) (by omega)
  rw [hj] at this
  cases this

theorem searchFileFrom_line_ge {path : String} {re : Regexp} :
    ∀ {lines : List (List Char)} {start : Nat} {r : Result},
      r ∈ searchFileFrom path re start lines → (start : Int) ≤ r.Line := by
  intro lines
  induction lines with
  | nil => intro start r h; simp [searchFileFrom] at h
  | cons line rest ih =>
      intro start r h
      simp only [searchFileFrom] at h
      rcases List.mem_append.mp h with h | h
      · split at h
        · rcases List.mem_singleton.mp h with rfl
          exact le_refl _
        · simp at h
      · have := ih h
        have h1 : ((start : Int) + 1) ≤ r.Line := by exact_mod_cast this
        omega

theorem searchFileFrom_filter {path : String} {re : Regexp} :
    ∀ (lines : List (List Char)) (start i : Nat) (h : i < lines.length),
      (searchFileFrom path re start lines).filter
          (fun r => r.Line = ((start + i : Nat) : Int)) =
        (if re.matchString (lines.get ⟨i, h⟩) then
          [{ Path := path, Line := ((start + i : Nat) : Int),
             Column := ((re.findIndex (lines.get ⟨i, h⟩)).getD 0 : Nat),
             Match := ⟨lines.get ⟨i, h⟩⟩ }]
        else []) := by
  intro lines
  induction lines with
  | nil => intro start i h; simp at h
  | cons line rest ih =>
      intro start i h
      cases i with
      | zero =>
          simp only [searchFileFrom, List.filter_append]
          have htail : (searchFileFrom path re (start + 1) rest).filter
              (fun r => r.Line = ((start + 0 : Nat) : Int)) = [] := by
            rw [List.filter_eq_nil_iff]
            intro r hr
            have := searchFileFrom_line_ge hr
            simp only [decide_eq_true_eq]
            intro hcon
            rw [hcon] at this
            have : ((start : Int) + 1) ≤ ((start + 0 : Nat) : Int) := by exact_mod_cast this
            omega
          rw [htail, List.append_nil]
          by_cases hm : re.matchString line = true
          · simp [hm]
          · have hm' : re.matchString line = false := by
              simpa using hm
            simp [hm']
      | succ i' =>
          simp only [searchFileFrom, List.filter_append]
          have h' : i' < rest.length := by simpa using h
          have htail := ih (start + 1) i' h'
          have harith : ((start + 1) + i' : Nat) = (start + (i' + 1) : Nat) := by omega
          rw [harith] at htail
          rw [htail]
          have hne : ¬ ((start : Int) = ((start + (i' + 1) : Nat) : Int)) := by
            push_cast
            omega
          by_cases hm : re.matchString line = true
          · simp [hm, hne]
            omega
          · have hm' : re.matchString line = false := by
              simpa using hm
            simp [hm', hne]

/-- Claim C1: for every line of a scanned text file, `searchFile` emits
exactly one match record when the pattern matches the line at least once
— carrying the line's 1-based number, the start offset of the leftmost
match as `Column`, and the entire line text as `Match` — and no record
at all otherwise; in particular several matches on one line never yield
several records, and the recorded column is minimal among all offsets
where a match starts. -/
theorem searchFile_per_line (path : String) (re : Regexp) (content : List Char)
    (i : Nat) (h : i < (scanLines content).length) :
    ((searchFile path re content).filter (fun r => r.Line = (i : Int) + 1) =
      (if re.matchString ((scanLines content).get ⟨i, h⟩) then
        [{ Path := path, Line := (i : Int) + 1,
           Column := ((re.findIndex ((scanLines content).get ⟨i, h⟩)).getD 0 : Nat),
           Match := ⟨(scanLines content).get ⟨i, h⟩⟩ }]
      else [])) ∧
    (re.matchString ((scanLines content).get ⟨i, h⟩) = true →
      re.matchesAt ((scanLines content).get ⟨i, h⟩)
          ((re.findIndex ((scanLines content).get ⟨i, h⟩)).getD 0) = true ∧
      ∀ j, re.matchesAt ((scanLines content).get ⟨i, h⟩) j = true →
        ((re.findIndex ((scanLines content).get ⟨i, h⟩)).getD 0) ≤ j) := by
  constructor
  · have := @searchFileFrom_filter path re (scanLines content) 1 i h
    have harith : ((1 + i : Nat) : Int) = (i : Int) + 1 := by push_cast; ring
    rw [harith] at this
    exact this
  · intro hm
    unfold Regexp.matchString at hm
    obtain ⟨c, hc⟩ := Option.isSome_iff_exists.mp hm
    obtain ⟨h1, h2⟩ := findIndex_first hc
    rw [hc]
    exact ⟨h1, h2⟩

/-- Witness for C1 at a concrete file: content `"axb\nxb"` and the
literal pattern `"b"`; line 1 matches once at offset 2 and yields
exactly that one record. -/
theorem searchFile_per_line_witness :
    0 < (scanLines (("axb\nxb").data)).length ∧
    (((searchFile ("p") (reLit ("b")) (("axb\nxb").data)).filter
        (fun r => r.Line = (0 : Int) + 1) =
      (if (reLit ("b")).matchString ((scanLines (("axb\nxb").data)).get ⟨0, by decide⟩) then
        [{ Path := "p", Line := (0 : Int) + 1,
           Column := (((reLit ("b")).findIndex
              ((scanLines (("axb\nxb").data)).get ⟨0, by decide⟩)).getD 0 : Nat),
           Match := ⟨(scanLines (("axb\nxb").data)).get ⟨0, by decide⟩⟩ }]
      else [])) ∧
    ((reLit ("b")).matchString ((scanLines (("axb\nxb").data)).get ⟨0, by decide⟩) = true →
      (reLit ("b")).matchesAt ((scanLines (("axb\nxb").data)).get ⟨0, by decide⟩)
          (((reLit ("b")).findIndex ((scanLines (("axb\nxb").data)).get ⟨0, by decide⟩)).getD 0) = true ∧
      ∀ j, (reLit ("b")).matchesAt ((scanLines (("axb\nxb").data)).get ⟨0, by decide⟩) j = true →
        (((reLit ("b")).findIndex
            ((scanLines (("axb\nxb").data)).get ⟨0, by decide⟩)).getD 0) ≤ j)) :=
  ⟨by decide, searchFile_per_line ("p") (reLit ("b")) (("axb\nxb").data) 0 (by decide)⟩

/-! ### Walk provenance: where each result of a traversal comes from -/

theorem walkGo_file (fn : List String → Entry → List Result × Bool)
    (n : String) (rd : Bool) (c : List Char) (comps : List String) :
    walkGo fn (.file n rd c) comps = (fn comps (.file n rd c)).1 := by
  rw [walkGo]

theorem walkGo_dir (fn : List String → Entry → List Result × Bool)
    (n : String) (rd : Bool) (es : List Entry) (comps : List String) :
    walkGo fn (.dir n rd es) comps =
      (if rd then
        (fn comps (.dir n rd es)).1 ++
          (if (fn comps (.dir n rd es)).2 then []
           else ((sortEntries es).map (fun c => walkGo fn c (comps ++ [c.name]))).flatten)
      else []) := by
  rw [walkGo]
  simp [List.map_attach]

theorem walkGo_mem_aux (fn : List String → Entry → List Result × Bool) :
    ∀ (N : Nat) (e : Entry) (comps₀ : List String) (r : Result),
      sizeOf e ≤ N → r ∈ walkGo fn e comps₀ →
      ∃ suffix e', Subtree e suffix e' ∧
        r ∈ (fn (comps₀ ++ suffix) e').1 ∧
        (suffix ≠ [] → ∃ dn des, e = .dir dn true des ∧ (fn comps₀ e).2 = false) ∧
        (∀ mid, mid ≠ [] → (∃ t, mid ++ t = suffix) → mid ≠ suffix →
          ∃ dn des, Subtree e mid (.dir dn true des) ∧
            (fn (comps₀ ++ mid) (.dir dn true des)).2 = false) := by
  intro N
  induction N with
  | zero =>
      intro e comps₀ r hs _hr
      exfalso
      cases e with
      | file n rd c =>
          simp only [Entry.file.sizeOf_spec] at hs
          omega
      | dir n rd es =>
          simp only [Entry.dir.sizeOf_spec] at hs
          omega
  | succ N ih =>
      intro e comps₀ r hs hr
      cases e with
      | file n rd c =>
          rw [walkGo_file] at hr
          refine ⟨[], .file n rd c, .refl _, by simpa using hr, ?_, ?_⟩
          · intro hcon
            exact absurd rfl hcon
          · rintro mid hne ⟨t, ht⟩ _
            have hmid : mid = [] := by
              cases mid with
              | nil => rfl
              | cons m ms => simp at ht
            exact absurd hmid hne
      | dir n rd es =>
          rw [walkGo_dir] at hr
          cases rd with
          | false => simp at hr
          | true =>
              rw [if_pos rfl] at hr
              rcases List.mem_append.mp hr with hr | hr
              · refine ⟨[], .dir n true es, .refl _, by simpa using hr,
                  fun hcon => absurd rfl hcon, ?_⟩
                rintro mid hne ⟨t, ht⟩ _
                have hmid : mid = [] := by
                  cases mid with
                  | nil => rfl
                  | cons m ms => simp at ht
                exact absurd hmid hne
              · by_cases hskip : (fn comps₀ (.dir n true es)).2 = true
                · rw [if_pos hskip] at hr
                  simp at hr
                · rw [if_neg hskip] at hr
                  simp only [List.mem_flatten, List.mem_map] at hr
                  obtain ⟨l, ⟨c, hc, rfl⟩, hrl⟩ := hr
                  have hcm : c ∈ es := mem_sortEntries.mp hc
                  have hsz : sizeOf c ≤ N := by
                    have h1 := List.sizeOf_lt_of_mem hcm
                    simp only [Entry.dir.sizeOf_spec] at hs
                    omega
                  obtain ⟨suffix', e', hsub', hmem', hcond3', hcond4'⟩ :=
                    ih c (comps₀ ++ [c.name]) r hsz hrl
                  have hskipf : (fn comps₀ (.dir n true es)).2 = false := by
                    simpa using hskip
                  refine ⟨c.name :: suffix', e', Subtree.step hcm hsub', ?_, ?_, ?_⟩
                  · have hassoc : comps₀ ++ c.name :: suffix' =
                        (comps₀ ++ [c.name]) ++ suffix' := by simp
                    rw [hassoc]
                    exact hmem'
                  · intro _
                    exact ⟨n, es, rfl, hskipf⟩
                  · rintro mid hne ⟨t, ht⟩ hneq
                    cases mid with
                    | nil => exact absurd rfl hne
                    | cons m mid' =>
                        have hm : m = c.name ∧ mid' ++ t = suffix' := by
                          simpa using ht
                        obtain ⟨rfl, ht'⟩ := hm
                        by_cases hmid : mid' = []
                        · subst hmid
                          have hsufne : suffix' ≠ [] := by
                            intro hcon
                            apply hneq
                            rw [hcon]
                          obtain ⟨dn, des, hce, hskip'⟩ := hcond3' hsufne
                          refine ⟨dn, des, ?_, ?_⟩
                          · exact Subtree.step hcm (hce ▸ Subtree.refl c)
                          · rw [← hce]
                            simpa using hskip'
                        · have hneq' : mid' ≠ suffix' := by
                            intro hcon
                            apply hneq
                            rw [hcon]
                          obtain ⟨dn, des, hsubm, hskipm⟩ :=
                            hcond4' mid' hmid ⟨t, ht'⟩ hneq'
                          refine ⟨dn, des, Subtree.step hcm hsubm, ?_⟩
                          have hassoc : comps₀ ++ c.name :: mid' =
                              (comps₀ ++ [c.name]) ++ mid' := by simp
                          rw [hassoc]
                          exact hskipm

theorem walkGo_mem {fn : List String → Entry → List Result × Bool}
    {e : Entry} {comps₀ : List String} {r : Result} (h : r ∈ walkGo fn e comps₀) :
    ∃ suffix e', Subtree e suffix e' ∧
      r ∈ (fn (comps₀ ++ suffix) e').1 ∧
      (suffix ≠ [] → ∃ dn des, e = .dir dn true des ∧ (fn comps₀ e).2 = false) ∧
      (∀ mid, mid ≠ [] → (∃ t, mid ++ t = suffix) → mid ≠ suffix →
        ∃ dn des, Subtree e mid (.dir dn true des) ∧
          (fn (comps₀ ++ mid) (.dir dn true des)).2 = false) :=
  walkGo_mem_aux fn (sizeOf e) e comps₀ r (le_refl _) h

theorem find_ok {re : Regexp} {root : String} {gi : Option (String → Bool)}
    {tree : Entry} {rs : List Result}
    (h : Find (some re) true root gi tree = .ok rs) :
    rs = walkGo (findWalkFn gi re root) tree [] := by
  simp only [Find, if_true] at h
  exact (Except.ok.injEq _ _ ▸ congrArg id h).symm ▸ rfl

theorem findSymbols_ok {re : Regexp} {root : String} {gi : Option (String → Bool)}
    {tree : Entry} {rs : List Result}
    (h : FindSymbols (some re) true root gi tree = .ok rs) :
    rs = walkGo (symWalkFn gi re root) tree [] := by
  simp only [FindSymbols, if_true] at h
  exact (Except.ok.injEq _ _ ▸ congrArg id h).symm ▸ rfl

theorem findWalkFn_dir_nil (gi : Option (String → Bool)) (re : Regexp) (root : String)
    (comps : List String) (n : String) (rd : Bool) (es : List Entry) :
    (findWalkFn gi re root comps (.dir n rd es)).1 = [] := rfl

theorem symWalkFn_dir_nil (gi : Option (String → Bool)) (re : Regexp) (root : String)
    (comps : List String) (n : String) (rd : Bool) (es : List Entry) :
    (symWalkFn gi re root comps (.dir n rd es)).1 = [] := rfl

theorem findWalkFn_file_mem {gi : Option (String → Bool)} {re : Regexp} {root : String}
    {comps : List String} {n : String} {rd : Bool} {content : List Char} {r : Result}
    (h : r ∈ (findWalkFn gi re root comps (.file n rd content)).1) :
    giMatch gi (relOf comps) = false ∧ IsBinaryFile rd content = false ∧ rd = true ∧
    r ∈ searchFile (fullPath root comps) re content := by
  by_cases h1 : giMatch gi (relOf comps) = true
  · simp [findWalkFn, h1] at h
  · have h1' : giMatch gi (relOf comps) = false := by simpa using h1
    by_cases h2 : IsBinaryFile rd content = true
    · simp [findWalkFn, h1', h2] at h
    · have h2' : IsBinaryFile rd content = false := by simpa using h2
      cases rd with
      | false => simp [findWalkFn, h1', h2'] at h
      | true =>
          simp only [findWalkFn, h1', h2', Bool.false_eq_true, if_false, if_true] at h
          exact ⟨h1', h2', rfl, h⟩

theorem symWalkFn_file_mem {gi : Option (String → Bool)} {re : Regexp} {root : String}
    {comps : List String} {n : String} {rd : Bool} {content : List Char} {r : Result}
    (h : r ∈ (symWalkFn gi re root comps (.file n rd content)).1) :
    IsSupportedSymbolFile (fullPath root comps) = true ∧
    giMatch gi (relOf comps) = false ∧ rd = true ∧
    r ∈ symFileResults (fullPath root comps) re content := by
  by_cases h0 : IsSupportedSymbolFile (fullPath root comps) = true
  · by_cases h1 : giMatch gi (relOf comps) = true
    · simp [symWalkFn, h0, h1] at h
    · have h1' : giMatch gi (relOf comps) = false := by simpa using h1
      cases rd with
      | false => simp [symWalkFn, h0, h1'] at h
      | true =>
          simp only [symWalkFn, h0, h1', Bool.not_true, Bool.false_eq_true,
            if_false, if_true] at h
          exact ⟨h0, h1', rfl, h⟩
  · have h0' : IsSupportedSymbolFile (fullPath root comps) = false := by simpa using h0
    simp [symWalkFn, h0'] at h

theorem symFileResults_mem {path : String} {re : Regexp} {content : List Char} {r : Result}
    (h : r ∈ symFileResults path re content) :
    ∃ s ∈ extractSymbols (filepathExt path) content,
      re.matchString s.Name.data = true ∧
      r = { Path := path, Line := s.Line, Column := s.Column, Match := s.Name } := by
  unfold symFileResults at h
  simp only [List.mem_filterMap] at h
  obtain ⟨s, hs, hopt⟩ := h
  by_cases hm : re.matchString s.Name.data = true
  · rw [if_pos hm] at hopt
    cases hopt
    exact ⟨s, hs, hm, rfl⟩
  · rw [if_neg hm] at hopt
    cases hopt

theorem searchFileFrom_path {path : String} {re : Regexp} :
    ∀ {lines : List (List Char)} {start : Nat} {r : Result},
      r ∈ searchFileFrom path re start lines → r.Path = path := by
  intro lines
  induction lines with
  | nil => intro start r h; simp [searchFileFrom] at h
  | cons line rest ih =>
      intro start r h
      simp only [searchFileFrom] at h
      rcases List.mem_append.mp h with h | h
      · split at h
        · rcases List.mem_singleton.mp h with rfl
          rfl
        · simp at h
      · exact ih h

/-! ### Claim C8: transient I/O failures are silently skipped -/

/-- Claim C8: with a valid pattern and an existing root, `Find` always
returns without error; an unreadable file and an unreadable directory
contribute nothing to the walk; and when every file of the tree is
ignored, unreadable or binary, the whole result is the empty list with
no error — indistinguishable from a pattern that matched nothing. -/
theorem find_skips_transient_io (re : Regexp) (root : String)
    (gi : Option (String → Bool)) (tree : Entry)
    (hall : ∀ comps n rd content, Subtree tree comps (.file n rd content) →
      giMatch gi (relOf comps) = true ∨ rd = false ∨ IsBinaryFile rd content = true) :
    Find (some re) true root gi tree = .ok [] ∧
    (∀ (n : String) (content : List Char) (comps : List String),
      walkGo (findWalkFn gi re root) (.file n false content) comps = []) ∧
    (∀ (n : String) (es : List Entry) (comps : List String),
      walkGo (findWalkFn gi re root) (.dir n false es) comps = []) ∧
    (∀ (gi2 : Option (String → Bool)) (re2 : Regexp),
      ∃ rs, Find (some re2) true root gi2 tree = .ok rs) := by
  refine ⟨?_, ?_, ?_, fun gi2 re2 => ⟨_, rfl⟩⟩
  · have hwalk : walkGo (findWalkFn gi re root) tree [] = [] := by
      rw [List.eq_nil_iff_forall_not_mem]
      intro r hr
      obtain ⟨suffix, e', hsub, hmem, -, -⟩ := walkGo_mem hr
      simp only [List.nil_append] at hmem
      cases e' with
      | dir dn drd des =>
          rw [findWalkFn_dir_nil] at hmem
          simp at hmem
      | file n2 rd2 c2 =>
          obtain ⟨h1, h2, h3, -⟩ := findWalkFn_file_mem hmem
          rcases hall suffix n2 rd2 c2 hsub with hc | hc | hc
          · rw [hc] at h1; cases h1
          · rw [hc] at h3; cases h3
          · rw [hc] at h2; cases h2
    simp [Find, hwalk]
  · intro n content comps
    rw [walkGo_file]
    by_cases h1 : giMatch gi (relOf comps) = true
    · simp [findWalkFn, h1]
    · have h1' : giMatch gi (relOf comps) = false := by simpa using h1
      simp [findWalkFn, h1', IsBinaryFile]
  · intro n es comps
    rw [walkGo_dir]
    simp

/-- Witness for C8: a root with one binary, one unreadable and one
ignored file yields an empty, error-free search result. -/
theorem find_skips_transient_io_witness :
    (Find (some (reLit ("hello"))) true ("R")
        (some (fun s => s == "c.txt"))
        (.dir ("r") true
          [.file ("a.txt") false (("hello").data),
           .file ("b.txt") true ([Char.ofNat 0] ++ ("hello").data),
           .file ("c.txt") true (("hello").data)]) = .ok []) ∧
    (∀ (n : String) (content : List Char) (comps : List String),
      walkGo (findWalkFn (some (fun s => s == "c.txt")) (reLit ("hello")) ("R"))
        (.file n false content) comps = []) ∧
    (∀ (n : String) (es : List Entry) (comps : List String),
      walkGo (findWalkFn (some (fun s => s == "c.txt")) (reLit ("hello")) ("R"))
        (.dir n false es) comps = []) ∧
    (∀ (gi2 : Option (String → Bool)) (re2 : Regexp),
      ∃ rs, Find (some re2) true ("R") gi2
        (.dir ("r") true
          [.file ("a.txt") false (("hello").data),
           .file ("b.txt") true ([Char.ofNat 0] ++ ("hello").data),
           .file ("c.txt") true (("hello").data)]) = .ok rs) := by
  apply find_skips_transient_io
  intro comps n rd content hsub
  cases hsub with
  | step hc hrest =>
      simp only [List.mem_cons, List.not_mem_nil, or_false] at hc
      rcases hc with rfl | rfl | rfl
      · cases hrest with
        | refl => right; left; rfl
      · cases hrest with
        | refl => right; right; decide
      · cases hrest with
        | refl => left; decide

/-! ### Claim C5: symbol search matches names, not lines -/

/-- Claim C5: every record returned by `FindSymbols` originates from a
symbol extracted from some file of the tree whose name — not the line
text — matched the caller's pattern, and the record carries exactly that
symbol's name as `Match`, together with the symbol's line and column. -/
theorem findSymbols_matches_names (re : Regexp) (root : String)
    (gi : Option (String → Bool)) (tree : Entry) (rs : List Result)
    (h : FindSymbols (some re) true root gi tree = .ok rs) :
    ∀ r ∈ rs, ∃ (comps : List String) (n : String) (rd : Bool)
        (content : List Char) (s : Symbol),
      Subtree tree comps (.file n rd content) ∧
      s ∈ extractSymbols (filepathExt (fullPath root comps)) content ∧
      re.matchString s.Name.data = true ∧
      r = { Path := fullPath root comps, Line := s.Line,
            Column := s.Column, Match := s.Name } := by
  intro r hr
  rw [findSymbols_ok h] at hr
  obtain ⟨suffix, e', hsub, hmem, -, -⟩ := walkGo_mem hr
  simp only [List.nil_append] at hmem
  cases e' with
  | dir dn drd des =>
      rw [symWalkFn_dir_nil] at hmem
      simp at hmem
  | file n2 rd2 c2 =>
      obtain ⟨hsupp, hgi, hrd, hmem2⟩ := symWalkFn_file_mem hmem
      obtain ⟨s, hs, hm, rfl⟩ := symFileResults_mem hmem2
      exact ⟨suffix, n2, rd2, c2, s, hsub, hs, hm, rfl⟩

/-! ### Claim C6: the closed extension gate of symbol search -/

/-- Claim C6: every record of `FindSymbols` carries a path whose
extension belongs to the closed dispatch set; a file whose path has an
unsupported extension contributes zero records regardless of content;
and the supported set is exactly
`{.go, .ts, .tsx, .js, .jsx, .py, .sql}`. -/
theorem symbol_extension_gate (re : Regexp) (root : String)
    (gi : Option (String → Bool)) (tree : Entry) (rs : List Result)
    (h : FindSymbols (some re) true root gi tree = .ok rs) :
    (∀ r ∈ rs, IsSupportedSymbolFile r.Path = true) ∧
    (∀ (comps : List String) (n : String) (rd : Bool) (content : List Char),
      IsSupportedSymbolFile (fullPath root comps) = false →
      (symWalkFn gi re root comps (.file n rd content)).1 = []) ∧
    (∀ p : String, IsSupportedSymbolFile p = true ↔
      filepathExt p ∈ [".go", ".ts", ".tsx", ".js", ".jsx", ".py", ".sql"]) := by
  refine ⟨?_, ?_, ?_⟩
  · intro r hr
    rw [findSymbols_ok h] at hr
    obtain ⟨suffix, e', hsub, hmem, -, -⟩ := walkGo_mem hr
    simp only [List.nil_append] at hmem
    cases e' with
    | dir dn drd des =>
        rw [symWalkFn_dir_nil] at hmem
        simp at hmem
    | file n2 rd2 c2 =>
        obtain ⟨hsupp, -, -, hmem2⟩ := symWalkFn_file_mem hmem
        obtain ⟨s, -, -, rfl⟩ := symFileResults_mem hmem2
        exact hsupp
  · intro comps n rd content hfalse
    simp [symWalkFn, hfalse]
  · intro p
    unfold IsSupportedSymbolFile
    split <;> simp_all

theorem evalFindSymbolsSample :
    FindSymbols (some (reLit ("Foo"))) true ("R") none
      (.dir ("r") true [.file ("a.go") true (("func Foo()").data)]) =
    .ok [{ Path := "R/a.go", Line := 1, Column := 5, Match := "Foo" }] := by
  have h1 : walkGo (symWalkFn none (reLit ("Foo")) ("R"))
      (.dir ("r") true [.file ("a.go") true (("func Foo()").data)]) [] =
      [{ Path := "R/a.go", Line := 1, Column := 5, Match := "Foo" }] := by
    rw [walkGo_dir]
    simp only [sortEntries, insertByName, List.map_cons, List.map_nil]
    rw [walkGo_file]
    rfl
  simp [FindSymbols, h1]

/-- Witness for C5: a one-file tree `R/a.go` containing `func Foo()`
searched for the pattern `Foo`. -/
theorem findSymbols_matches_names_witness :
    ∃ (comps : List String) (n : String) (rd : Bool)
        (content : List Char) (s : Symbol),
      Subtree (.dir ("r") true [.file ("a.go") true (("func Foo()").data)])
        comps (.file n rd content) ∧
      s ∈ extractSymbols (filepathExt (fullPath ("R") comps)) content ∧
      (reLit ("Foo")).matchString s.Name.data = true ∧
      ({ Path := "R/a.go", Line := 1, Column := 5, Match := "Foo" } : Result) =
        { Path := fullPath ("R") comps, Line := s.Line,
          Column := s.Column, Match := s.Name } :=
  findSymbols_matches_names (reLit ("Foo")) ("R") none
    (.dir ("r") true [.file ("a.go") true (("func Foo()").data)])
    [{ Path := "R/a.go", Line := 1, Column := 5, Match := "Foo" }]
    evalFindSymbolsSample
    ({ Path := "R/a.go", Line := 1, Column := 5, Match := "Foo" })
    (by simp)

/-- Witness for C6 on the same one-file tree. -/
theorem symbol_extension_gate_witness :
    (∀ r ∈ [({ Path := "R/a.go", Line := 1, Column := 5, Match := "Foo" } : Result)],
      IsSupportedSymbolFile r.Path = true) ∧
    (∀ (comps : List String) (n : String) (rd : Bool) (content : List Char),
      IsSupportedSymbolFile (fullPath ("R") comps) = false →
      (symWalkFn none (reLit ("Foo")) ("R") comps (.file n rd content)).1 = []) ∧
    (∀ p : String, IsSupportedSymbolFile p = true ↔
      filepathExt p ∈ [".go", ".ts", ".tsx", ".js", ".jsx", ".py", ".sql"]) :=
  symbol_extension_gate (reLit ("Foo")) ("R") none
    (.dir ("r") true [.file ("a.go") true (("func Foo()").data)])
    [{ Path := "R/a.go", Line := 1, Column := 5, Match := "Foo" }]
    evalFindSymbolsSample

/-! ### Well-formed trees and injectivity of rendered paths -/

theorem namesOkList_iff {es : List Entry} :
    namesOkList es = true ↔ ∀ c ∈ es, namesOk c = true := by
  induction es with
  | nil => simp [namesOkList]
  | cons e es' ih =>
      rw [namesOkList]
      simp [ih]

theorem namesOk_dir_iff {n : String} {rd : Bool} {es : List Entry} :
    namesOk (.dir n rd es) = true ↔
      goodName n = true ∧ namesNodup es = true ∧ ∀ c ∈ es, namesOk c = true := by
  rw [namesOk]
  simp [namesOkList_iff, and_assoc]

theorem namesOk_name {e : Entry} (h : namesOk e = true) : goodName e.name = true := by
  cases e with
  | file n rd c =>
      rw [namesOk] at h
      exact h
  | dir n rd es => exact (namesOk_dir_iff.mp h).1

theorem goodName_spec {s : String} (h : goodName s = true) :
    s.data ≠ [] ∧ '/' ∉ s.data ∧ s ≠ "." := by
  unfold goodName at h
  simp only [Bool.and_eq_true, Bool.not_eq_true'] at h
  obtain ⟨⟨h1, h2⟩, h3⟩ := h
  refine ⟨?_, ?_, ?_⟩
  · intro hcon
    have : s = "" := String.ext hcon
    rw [this] at h1
    simp at h1
  · intro hcon
    have : s.data.contains '/' = true := by
      simpa using hcon
    rw [this] at h2
    cases h2
  · intro hcon
    rw [hcon] at h3
    simp at h3

theorem slashSplit {l₁ l₂ r₁ r₂ : List Char} (h₁ : '/' ∉ l₁) (h₂ : '/' ∉ l₂)
    (h : l₁ ++ '/' :: r₁ = l₂ ++ '/' :: r₂) : l₁ = l₂ ∧ r₁ = r₂ := by
  induction l₁ generalizing l₂ with
  | nil =>
      cases l₂ with
      | nil => simpa using h
      | cons b bs =>
          simp only [List.nil_append, List.cons_append, List.cons.injEq] at h
          exfalso
          apply h₂
          rw [← h.1]
          exact List.mem_cons_self _ _
  | cons a as ih =>
      cases l₂ with
      | nil =>
          simp only [List.cons_append, List.nil_append, List.cons.injEq] at h
          exfalso
          apply h₁
          rw [h.1]
          exact List.mem_cons_self _ _
      | cons b bs =>
          simp only [List.cons_append, List.cons.injEq] at h
          obtain ⟨rfl, h2⟩ := h
          have ih' := ih (fun hm => h₁ (List.mem_cons_of_mem _ hm))
            (fun hm => h₂ (List.mem_cons_of_mem _ hm)) h2
          exact ⟨by rw [ih'.1], ih'.2⟩

theorem relOf_cons {c : String} {cs : List String} (h : cs ≠ []) :
    relOf (c :: cs) = c ++ "/" ++ relOf cs := by
  cases cs with
  | nil => exact absurd rfl h
  | cons d ds => rfl

theorem relOf_data_cons {a : String} {as : List String} (h : as ≠ []) :
    (relOf (a :: as)).data = a.data ++ '/' :: (relOf as).data := by
  rw [relOf_cons h, String.data_append, String.data_append]
  simp

theorem relOf_inj : ∀ {as : List String}, (∀ a ∈ as, goodName a = true) →
    ∀ {bs : List String}, (∀ b ∈ bs, goodName b = true) →
    relOf as = relOf bs → as = bs := by
  intro as
  induction as with
  | nil =>
      intro _ bs hb h
      cases bs with
      | nil => rfl
      | cons b bs' =>
          exfalso
          obtain ⟨hne, hns, hnd⟩ := goodName_spec (hb b (List.mem_cons_self _ _))
          cases bs' with
          | nil => exact hnd h.symm
          | cons d ds =>
              have hd := congrArg String.data h
              rw [@relOf_data_cons b (d :: ds) (by simp)] at hd
              have hd2 : ['.'] = b.data ++ '/' :: (relOf (d :: ds)).data := hd
              have hlen := congrArg List.length hd2
              rw [List.length_append, List.length_cons] at hlen
              have hbpos : 0 < b.data.length := List.length_pos.mpr hne
              simp only [List.length_cons, List.length_nil] at hlen
              omega
  | cons a as' ih =>
      intro ha bs hb h
      cases bs with
      | nil =>
          exfalso
          obtain ⟨hne, hns, hnd⟩ := goodName_spec (ha a (List.mem_cons_self _ _))
          cases as' with
          | nil => exact hnd h
          | cons d ds =>
              have hd := congrArg String.data h
              rw [@relOf_data_cons a (d :: ds) (by simp)] at hd
              have hd2 : a.data ++ '/' :: (relOf (d :: ds)).data = ['.'] := hd
              have hlen := congrArg List.length hd2
              rw [List.length_append, List.length_cons] at hlen
              have hapos : 0 < a.data.length := List.length_pos.mpr hne
              simp only [List.length_cons, List.length_nil] at hlen
              omega
      | cons b bs' =>
          obtain ⟨hane, hans, -⟩ := goodName_spec (ha a (List.mem_cons_self _ _))
          obtain ⟨hbne, hbns, -⟩ := goodName_spec (hb b (List.mem_cons_self _ _))
          cases as' with
          | nil =>
              cases bs' with
              | nil =>
                  have : a = b := h
                  rw [this]
              | cons d ds =>
                  exfalso
                  have hd := congrArg String.data h
                  rw [@relOf_data_cons b (d :: ds) (by simp)] at hd
                  have hd2 : a.data = b.data ++ '/' :: (relOf (d :: ds)).data := hd
                  apply hans
                  rw [hd2]
                  exact List.mem_append_right _ (List.mem_cons_self _ _)
          | cons c cs =>
              cases bs' with
              | nil =>
                  exfalso
                  have hd := congrArg String.data h
                  rw [@relOf_data_cons a (c :: cs) (by simp)] at hd
                  have hd2 : a.data ++ '/' :: (relOf (c :: cs)).data = b.data := hd
                  apply hbns
                  rw [← hd2]
                  exact List.mem_append_right _ (List.mem_cons_self _ _)
              | cons d ds =>
                  have hd := congrArg String.data h
                  rw [@relOf_data_cons a (c :: cs) (by simp),
                    @relOf_data_cons b (d :: ds) (by simp)] at hd
                  obtain ⟨hab, hrest⟩ := slashSplit hans hbns hd
                  have hae : a = b := String.ext hab
                  have hre : relOf (c :: cs) = relOf (d :: ds) := String.ext hrest
                  have htail := ih (fun x hx => ha x (List.mem_cons_of_mem _ hx))
                    (fun x hx => hb x (List.mem_cons_of_mem _ hx)) hre
                  rw [hae, htail]

theorem slash_data : ("/" : String).data = ['/'] := rfl

theorem fullPath_cons_data (root : String) (c : String) (cs : List String) :
    (fullPath root (c :: cs)).data = root.data ++ '/' :: (relOf (c :: cs)).data := by
  show (root ++ "/" ++ relOf (c :: cs)).data = _
  rw [String.data_append, String.data_append, slash_data]
  simp

theorem fullPath_inj {root : String} {as bs : List String}
    (ha : ∀ a ∈ as, goodName a = true) (hb : ∀ b ∈ bs, goodName b = true)
    (h : fullPath root as = fullPath root bs) : as = bs := by
  cases as with
  | nil =>
      cases bs with
      | nil => rfl
      | cons b bs' =>
          exfalso
          have hd := congrArg String.data h
          rw [fullPath_cons_data] at hd
          have hlen := congrArg List.length hd
          simp only [fullPath, List.length_append, List.length_cons] at hlen
          omega
  | cons a as' =>
      cases bs with
      | nil =>
          exfalso
          have hd := congrArg String.data h
          rw [fullPath_cons_data] at hd
          have hlen := congrArg List.length hd
          simp only [fullPath, List.length_append, List.length_cons] at hlen
          omega
      | cons b bs' =>
          have hd := congrArg String.data h
          rw [fullPath_cons_data, fullPath_cons_data] at hd
          have hcancel := List.append_cancel_left hd
          have hcancel2 : (relOf (a :: as')).data = (relOf (b :: bs')).data := by
            injection hcancel
          exact relOf_inj ha hb (String.ext hcancel2)

theorem subtree_good : ∀ {e : Entry} {comps : List String} {e' : Entry},
    Subtree e comps e' → namesOk e = true →
    (∀ s ∈ comps, goodName s = true) ∧ namesOk e' = true := by
  intro e comps e' h
  induction h with
  | refl => exact fun hok => ⟨by simp, hok⟩
  | step hc hrest ih =>
      intro hok
      obtain ⟨-, -, hall⟩ := namesOk_dir_iff.mp hok
      rename_i c rest e2
      have hcok := hall c hc
      obtain ⟨hcomps, he2⟩ := ih hcok
      refine ⟨?_, he2⟩
      intro s hs
      rcases List.mem_cons.mp hs with rfl | hs
      · exact namesOk_name hcok
      · exact hcomps s hs

theorem namesNodup_unique {es : List Entry} (h : namesNodup es = true)
    {c c' : Entry} (hc : c ∈ es) (hc' : c' ∈ es) (hn : c.name = c'.name) : c = c' := by
  induction es with
  | nil => simp at hc
  | cons e es' ih =>
      rw [namesNodup] at h
      simp only [Bool.and_eq_true, Bool.not_eq_true'] at h
      obtain ⟨hhead, htail⟩ := h
      have hhead' : e.name ∉ es'.map Entry.name := by
        intro hm
        have : (es'.map Entry.name).contains e.name = true := by
          simpa using hm
        rw [this] at hhead
        cases hhead
      rcases List.mem_cons.mp hc with rfl | hc2
      · rcases List.mem_cons.mp hc' with rfl | hc'2
        · rfl
        · exfalso
          apply hhead'
          rw [hn]
          exact List.mem_map_of_mem _ hc'2
      · rcases List.mem_cons.mp hc' with rfl | hc'2
        · exfalso
          apply hhead'
          rw [← hn]
          exact List.mem_map_of_mem _ hc2
        · exact ih htail hc2 hc'2

theorem subtree_cons_inv {n : String} {rd : Bool} {es : List Entry}
    {m : String} {rest : List String} {e' : Entry}
    (h : Subtree (.dir n rd es) (m :: rest) e') :
    ∃ c ∈ es, c.name = m ∧ Subtree c rest e' := by
  cases h with
  | step hc hrest => exact ⟨_, hc, rfl, hrest⟩

theorem subtree_unique : ∀ {comps : List String} {e a b : Entry},
    namesOk e = true → Subtree e comps a → Subtree e comps b → a = b := by
  intro comps
  induction comps with
  | nil =>
      intro e a b _ ha hb
      cases ha with
      | refl => cases hb with | refl => rfl
  | cons m rest ih =>
      intro e a b hok ha hb
      cases e with
      | file n rd c => cases ha
      | dir n rd es =>
          obtain ⟨c, hc, hcn, hrest⟩ := subtree_cons_inv ha
          obtain ⟨c', hc', hcn', hrest'⟩ := subtree_cons_inv hb
          obtain ⟨-, hnd, hall⟩ := namesOk_dir_iff.mp hok
          have hcc : c = c' := namesNodup_unique hnd hc hc' (by rw [hcn, hcn'])
          subst hcc
          exact ih (hall c hc) hrest hrest'

theorem searchFile_path {path : String} {re : Regexp} {content : List Char} {r : Result}
    (h : r ∈ searchFile path re content) : r.Path = path :=
  searchFileFrom_path h

/-! ### Claim C3: binary detection and binary exclusion -/

/-- Claim C3: a readable file is classified binary exactly when a NUL
byte occurs in its first 512 bytes; unreadable and empty files are
classified text; and a file whose first 512 bytes contain a NUL never
contributes any record to `Find`, whatever the pattern. -/
theorem binary_detection (re : Regexp) (root : String) (gi : Option (String → Bool))
    (tree : Entry) (rs : List Result) (comps : List String)
    (fname : String) (frd : Bool) (fcontent : List Char)
    (hok : namesOk tree = true)
    (hsub : Subtree tree comps (.file fname frd fcontent))
    (hnul : Char.ofNat 0 ∈ fcontent.take 512)
    (hfind : Find (some re) true root gi tree = .ok rs) :
    (∀ content : List Char,
      IsBinaryFile true content = true ↔ Char.ofNat 0 ∈ content.take 512) ∧
    (∀ content : List Char, IsBinaryFile false content = false) ∧
    (∀ rd : Bool, IsBinaryFile rd [] = false) ∧
    (∀ r ∈ rs, r.Path ≠ fullPath root comps) := by
  refine ⟨?_, ?_, ?_, ?_⟩
  · intro content
    simp [IsBinaryFile]
  · intro content
    rfl
  · intro rd
    simp [IsBinaryFile]
  · intro r hr heq
    rw [find_ok hfind] at hr
    obtain ⟨suffix, e', hsub', hmem, -, -⟩ := walkGo_mem hr
    simp only [List.nil_append] at hmem
    cases e' with
    | dir dn drd des =>
        rw [findWalkFn_dir_nil] at hmem
        simp at hmem
    | file n2 rd2 c2 =>
        obtain ⟨-, hbin, hrd, hsf⟩ := findWalkFn_file_mem hmem
        have hpath : r.Path = fullPath root suffix := searchFile_path hsf
        have hgood1 := (subtree_good hsub' hok).1
        have hgood2 := (subtree_good hsub hok).1
        have hcs : suffix = comps := fullPath_inj hgood1 hgood2 (by rw [← hpath, heq])
        subst hcs
        have hef : Entry.file n2 rd2 c2 = Entry.file fname frd fcontent :=
          subtree_unique hok hsub' hsub
        injection hef with h1 h2 h3
        subst h2 h3
        rw [hrd] at hbin
        have : IsBinaryFile true c2 = true := by
          simp only [IsBinaryFile, Bool.true_and]
          simpa using hnul
        rw [this] at hbin
        cases hbin

theorem evalFindBinarySample :
    Find (some (reLit ("hello"))) true ("R") none
      (.dir ("r") true
        [.file ("a.txt") true (("hello").data),
         .file ("b.txt") true ([Char.ofNat 0] ++ ("hello").data)]) =
    .ok [{ Path := "R/a.txt", Line := 1, Column := 0, Match := "hello" }] := by
  have h1 : walkGo (findWalkFn none (reLit ("hello")) ("R"))
      (.dir ("r") true
        [.file ("a.txt") true (("hello").data),
         .file ("b.txt") true ([Char.ofNat 0] ++ ("hello").data)]) [] =
      [{ Path := "R/a.txt", Line := 1, Column := 0, Match := "hello" }] := by
    rw [walkGo_dir]
    rw [show sortEntries
        [.file ("a.txt") true (("hello").data),
         .file ("b.txt") true ([Char.ofNat 0] ++ ("hello").data)] =
        [.file ("a.txt") true (("hello").data),
         .file ("b.txt") true ([Char.ofNat 0] ++ ("hello").data)] from rfl]
    simp only [List.map_cons, List.map_nil, walkGo_file]
    rfl
  show Except.ok (walkGo (findWalkFn none (reLit ("hello")) ("R"))
      (.dir ("r") true
        [.file ("a.txt") true (("hello").data),
         .file ("b.txt") true ([Char.ofNat 0] ++ ("hello").data)]) []) = _
  exact congrArg Except.ok h1

/-- Witness for C3: a two-file tree where `R/b.txt` starts with a NUL
byte; searching for `hello` returns only the `R/a.txt` record. -/
theorem binary_detection_witness :
    (∀ content : List Char,
      IsBinaryFile true content = true ↔ Char.ofNat 0 ∈ content.take 512) ∧
    (∀ content : List Char, IsBinaryFile false content = false) ∧
    (∀ rd : Bool, IsBinaryFile rd [] = false) ∧
    (∀ r ∈ [({ Path := "R/a.txt", Line := 1, Column := 0, Match := "hello" } : Result)],
      r.Path ≠ fullPath ("R") ["b.txt"]) :=
  binary_detection (reLit ("hello")) ("R") none
    (.dir ("r") true
      [.file ("a.txt") true (("hello").data),
       .file ("b.txt") true ([Char.ofNat 0] ++ ("hello").data)])
    [{ Path := "R/a.txt", Line := 1, Column := 0, Match := "hello" }]
    ["b.txt"] ("b.txt") true ([Char.ofNat 0] ++ ("hello").data)
    (by simp [namesOk, namesOkList, namesNodup, goodName, Entry.name])
    (Subtree.step
      (show Entry.file ("b.txt") true ([Char.ofNat 0] ++ ("hello").data) ∈
        [Entry.file ("a.txt") true (("hello").data),
         Entry.file ("b.txt") true ([Char.ofNat 0] ++ ("hello").data)] by simp)
      (Subtree.refl _))
    (by decide)
    evalFindBinarySample

/-! ### Claim C2: directory-scoped ignore rules prune whole subtrees -/

/-- Claim C2: when a directory of the tree sits at a non-root relative
path matched by the ignore predicate, both walks answer `SkipDir` there
— the walk of that directory yields nothing at all — and consequently no
record of either `Find` or `FindSymbols` can carry the path of any file
below that directory, regardless of the file's content. -/
theorem ignored_dir_pruned (re re2 : Regexp) (root : String) (g : String → Bool)
    (tree : Entry) (rs rs2 : List Result) (comps₀ suf : List String)
    (dn : String) (drd : Bool) (des : List Entry)
    (fname : String) (frd : Bool) (fcontent : List Char)
    (hok : namesOk tree = true)
    (hdir : Subtree tree comps₀ (.dir dn drd des))
    (h0 : comps₀ ≠ [])
    (hg : g (relOf comps₀) = true)
    (hfile : Subtree tree (comps₀ ++ suf) (.file fname frd fcontent))
    (hsuf : suf ≠ [])
    (hfind : Find (some re) true root (some g) tree = .ok rs)
    (hsym : FindSymbols (some re2) true root (some g) tree = .ok rs2) :
    (∀ r ∈ rs, r.Path ≠ fullPath root (comps₀ ++ suf)) ∧
    (∀ r ∈ rs2, r.Path ≠ fullPath root (comps₀ ++ suf)) ∧
    walkGo (findWalkFn (some g) re root) (.dir dn drd des) comps₀ = [] ∧
    walkGo (symWalkFn (some g) re2 root) (.dir dn drd des) comps₀ = [] := by
  have hskip : (!comps₀.isEmpty && giMatch (some g) (relOf comps₀)) = true := by
    have h0' : comps₀.isEmpty = false := by
      cases comps₀ with
      | nil => exact absurd rfl h0
      | cons a as => rfl
    simp [h0', giMatch, hg]
  have hgood2 := (subtree_good hfile hok).1
  have hmid : ∀ {suffix : List String}, suffix = comps₀ ++ suf → False → True := fun _ _ => trivial
  refine ⟨?_, ?_, ?_, ?_⟩
  · intro r hr heq
    rw [find_ok hfind] at hr
    obtain ⟨suffix, e', hsub', hmem, -, hcond4⟩ := walkGo_mem hr
    simp only [List.nil_append] at hmem hcond4
    cases e' with
    | dir a b c =>
        rw [findWalkFn_dir_nil] at hmem
        simp at hmem
    | file n2 rd2 c2 =>
        obtain ⟨-, -, -, hsf⟩ := findWalkFn_file_mem hmem
        have hpath : r.Path = fullPath root suffix := searchFile_path hsf
        have hgood1 := (subtree_good hsub' hok).1
        have hcs : suffix = comps₀ ++ suf := fullPath_inj hgood1 hgood2 (by rw [← hpath, heq])
        subst hcs
        obtain ⟨dn2, des2, -, hskipf⟩ := hcond4 comps₀ h0 ⟨suf, rfl⟩
          (by intro hcon; rw [List.self_eq_append_right] at hcon; exact hsuf hcon)
        rw [show findWalkFn (some g) re root comps₀ (.dir dn2 true des2) =
          ([], !comps₀.isEmpty && giMatch (some g) (relOf comps₀)) from rfl] at hskipf
        rw [hskip] at hskipf
        cases hskipf
  · intro r hr heq
    rw [findSymbols_ok hsym] at hr
    obtain ⟨suffix, e', hsub', hmem, -, hcond4⟩ := walkGo_mem hr
    simp only [List.nil_append] at hmem hcond4
    cases e' with
    | dir a b c =>
        rw [symWalkFn_dir_nil] at hmem
        simp at hmem
    | file n2 rd2 c2 =>
        obtain ⟨-, -, -, hmem2⟩ := symWalkFn_file_mem hmem
        obtain ⟨s, -, -, rfl⟩ := symFileResults_mem hmem2
        have hgood1 := (subtree_good hsub' hok).1
        have hcs : suffix = comps₀ ++ suf := fullPath_inj hgood1 hgood2 heq
        subst hcs
        obtain ⟨dn2, des2, -, hskipf⟩ := hcond4 comps₀ h0 ⟨suf, rfl⟩
          (by intro hcon; rw [List.self_eq_append_right] at hcon; exact hsuf hcon)
        rw [show symWalkFn (some g) re2 root comps₀ (.dir dn2 true des2) =
          ([], !comps₀.isEmpty && giMatch (some g) (relOf comps₀)) from rfl] at hskipf
        rw [hskip] at hskipf
        cases hskipf
  · rw [walkGo_dir]
    cases drd with
    | false => simp
    | true =>
        rw [if_pos rfl]
        rw [show (findWalkFn (some g) re root comps₀ (.dir dn true des)).2 =
          (!comps₀.isEmpty && giMatch (some g) (relOf comps₀)) from rfl]
        rw [hskip, if_pos rfl, findWalkFn_dir_nil]
        rfl
  · rw [walkGo_dir]
    cases drd with
    | false => simp
    | true =>
        rw [if_pos rfl]
        rw [show (symWalkFn (some g) re2 root comps₀ (.dir dn true des)).2 =
          (!comps₀.isEmpty && giMatch (some g) (relOf comps₀)) from rfl]
        rw [hskip, if_pos rfl, symWalkFn_dir_nil]
        rfl

theorem evalFindIgnoredSample :
    Find (some (reLit ("hello"))) true ("R") (some (fun s => s == "ignored"))
      (.dir ("r") true
        [.file ("a.txt") true (("hello").data),
         .dir ("ignored") true [.file ("b.txt") true (("hello").data)]]) =
    .ok [{ Path := "R/a.txt", Line := 1, Column := 0, Match := "hello" }] := by
  have h1 : walkGo (findWalkFn (some (fun s => s == "ignored")) (reLit ("hello")) ("R"))
      (.dir ("r") true
        [.file ("a.txt") true (("hello").data),
         .dir ("ignored") true [.file ("b.txt") true (("hello").data)]]) [] =
      [{ Path := "R/a.txt", Line := 1, Column := 0, Match := "hello" }] := by
    rw [walkGo_dir]
    rw [show sortEntries
        [.file ("a.txt") true (("hello").data),
         .dir ("ignored") true [.file ("b.txt") true (("hello").data)]] =
        [.file ("a.txt") true (("hello").data),
         .dir ("ignored") true [.file ("b.txt") true (("hello").data)]] from rfl]
    simp only [List.map_cons, List.map_nil, walkGo_file, walkGo_dir]
    rfl
  show Except.ok (walkGo (findWalkFn (some (fun s => s == "ignored"))
      (reLit ("hello")) ("R"))
      (.dir ("r") true
        [.file ("a.txt") true (("hello").data),
         .dir ("ignored") true [.file ("b.txt") true (("hello").data)]]) []) = _
  exact congrArg Except.ok h1

theorem evalSymIgnoredSample :
    FindSymbols (some (reLit ("hello"))) true ("R") (some (fun s => s == "ignored"))
      (.dir ("r") true
        [.file ("a.txt") true (("hello").data),
         .dir ("ignored") true [.file ("b.txt") true (("hello").data)]]) =
    .ok [] := by
  have h1 : walkGo (symWalkFn (some (fun s => s == "ignored")) (reLit ("hello")) ("R"))
      (.dir ("r") true
        [.file ("a.txt") true (("hello").data),
         .dir ("ignored") true [.file ("b.txt") true (("hello").data)]]) [] = [] := by
    rw [walkGo_dir]
    rw [show sortEntries
        [.file ("a.txt") true (("hello").data),
         .dir ("ignored") true [.file ("b.txt") true (("hello").data)]] =
        [.file ("a.txt") true (("hello").data),
         .dir ("ignored") true [.file ("b.txt") true (("hello").data)]] from rfl]
    simp only [List.map_cons, List.map_nil, walkGo_file, walkGo_dir]
    rfl
  show Except.ok (walkGo (symWalkFn (some (fun s => s == "ignored"))
      (reLit ("hello")) ("R"))
      (.dir ("r") true
        [.file ("a.txt") true (("hello").data),
         .dir ("ignored") true [.file ("b.txt") true (("hello").data)]]) []) = _
  exact congrArg Except.ok h1

/-- Witness for C2: the tree `R/a.txt`, `R/ignored/b.txt` with the
directory rule matching `ignored`; `b.txt` contains matching text but
appears in no result, and the walk of `ignored` is empty. -/
theorem ignored_dir_pruned_witness :
    (∀ r ∈ [({ Path := "R/a.txt", Line := 1, Column := 0, Match := "hello" } : Result)],
      r.Path ≠ fullPath ("R") (["ignored"] ++ ["b.txt"])) ∧
    (∀ r ∈ ([] : List Result), r.Path ≠ fullPath ("R") (["ignored"] ++ ["b.txt"])) ∧
    walkGo (findWalkFn (some (fun s => s == "ignored")) (reLit ("hello")) ("R"))
      (.dir ("ignored") true [.file ("b.txt") true (("hello").data)]) ["ignored"] = [] ∧
    walkGo (symWalkFn (some (fun s => s == "ignored")) (reLit ("hello")) ("R"))
      (.dir ("ignored") true [.file ("b.txt") true (("hello").data)]) ["ignored"] = [] :=
  ignored_dir_pruned (reLit ("hello")) (reLit ("hello")) ("R")
    (fun s => s == "ignored")
    (.dir ("r") true
      [.file ("a.txt") true (("hello").data),
       .dir ("ignored") true [.file ("b.txt") true (("hello").data)]])
    [{ Path := "R/a.txt", Line := 1, Column := 0, Match := "hello" }] []
    ["ignored"] ["b.txt"]
    ("ignored") true [.file ("b.txt") true (("hello").data)]
    ("b.txt") true (("hello").data)
    (by simp [namesOk, namesOkList, namesNodup, goodName, Entry.name])
    (Subtree.step
      (show Entry.dir ("ignored") true [.file ("b.txt") true (("hello").data)] ∈
        [Entry.file ("a.txt") true (("hello").data),
         Entry.dir ("ignored") true [.file ("b.txt") true (("hello").data)]] by simp)
      (Subtree.refl _))
    (by decide)
    (by decide)
    (Subtree.step
      (show Entry.dir ("ignored") true [.file ("b.txt") true (("hello").data)] ∈
        [Entry.file ("a.txt") true (("hello").data),
         Entry.dir ("ignored") true [.file ("b.txt") true (("hello").data)]] by simp)
      (Subtree.step
        (show Entry.file ("b.txt") true (("hello").data) ∈
          [Entry.file ("b.txt") true (("hello").data)] by simp)
        (Subtree.refl _)))
    (by decide)
    evalFindIgnoredSample
    evalSymIgnoredSample

/-! ### Claim C10: deterministic depth-first lexical order -/

theorem findFiles_file (gi : Option (String → Bool)) (n : String) (rd : Bool)
    (content : List Char) (comps : List String) :
    findFiles gi (.file n rd content) comps =
      (if giMatch gi (relOf comps) then []
       else if IsBinaryFile rd content then []
       else if rd then [(comps, content)] else []) := by
  rw [findFiles]

theorem findFiles_dir (gi : Option (String → Bool)) (n : String) (rd : Bool)
    (es : List Entry) (comps : List String) :
    findFiles gi (.dir n rd es) comps =
      (if rd then
        if !comps.isEmpty && giMatch gi (relOf comps) then []
        else ((sortEntries es).map (fun c => findFiles gi c (comps ++ [c.name]))).flatten
      else []) := by
  rw [findFiles]
  simp [List.map_attach]

theorem flatMap_flatten {α β : Type} (f : α → List β) :
    ∀ L : List (List α), L.flatten.flatMap f = (L.map (fun l => l.flatMap f)).flatten := by
  intro L
  induction L with
  | nil => simp
  | cons l L ih => simp [List.flatMap_append, ih]

theorem walk_factors (gi : Option (String → Bool)) (re : Regexp) (root : String) :
    ∀ (N : Nat) (e : Entry) (comps : List String), sizeOf e ≤ N →
      walkGo (findWalkFn gi re root) e comps =
        (findFiles gi e comps).flatMap
          (fun pc => searchFile (fullPath root pc.1) re pc.2) := by
  intro N
  induction N with
  | zero =>
      intro e comps hs
      exfalso
      cases e with
      | file n rd c =>
          simp only [Entry.file.sizeOf_spec] at hs
          omega
      | dir n rd es =>
          simp only [Entry.dir.sizeOf_spec] at hs
          omega
  | succ N ih =>
      intro e comps hs
      cases e with
      | file n rd content =>
          rw [walkGo_file, findFiles_file]
          by_cases h1 : giMatch gi (relOf comps) = true
          · simp [findWalkFn, h1]
          · have h1' : giMatch gi (relOf comps) = false := by simpa using h1
            by_cases h2 : IsBinaryFile rd content = true
            · simp [findWalkFn, h1', h2]
            · have h2' : IsBinaryFile rd content = false := by simpa using h2
              cases rd with
              | false => simp [findWalkFn, h1', h2']
              | true => simp [findWalkFn, h1', h2']
      | dir n rd es =>
          rw [walkGo_dir, findFiles_dir]
          cases rd with
          | false => simp
          | true =>
              rw [if_pos rfl, if_pos rfl]
              have hfn1 : (findWalkFn gi re root comps (.dir n true es)).1 = [] := rfl
              have hfn2 : (findWalkFn gi re root comps (.dir n true es)).2 =
                (!comps.isEmpty && giMatch gi (relOf comps)) := rfl
              rw [hfn1, hfn2, List.nil_append]
              by_cases hskip : (!comps.isEmpty && giMatch gi (relOf comps)) = true
              · rw [if_pos hskip, if_pos hskip]
                rfl
              · have hskip' : (!comps.isEmpty && giMatch gi (relOf comps)) = false := by
                  simpa using hskip
                rw [hskip']
                simp only [Bool.false_eq_true, if_false]
                rw [flatMap_flatten, List.map_map]
                congr 1
                apply List.map_congr_left
                intro c hc
                have hsz : sizeOf c ≤ N := by
                  have h1 := List.sizeOf_lt_of_mem (mem_sortEntries.mp hc)
                  simp only [Entry.dir.sizeOf_spec] at hs
                  omega
                exact ih c (comps ++ [c.name]) hsz

theorem charsLe_total (a : List Char) : ∀ b : List Char,
    charsLe a b = true ∨ charsLe b a = true := by
  induction a with
  | nil => intro b; left; rfl
  | cons x xs ih =>
      intro b
      cases b with
      | nil => right; rfl
      | cons y ys =>
          rcases lt_trichotomy x y with h | h | h
          · left; simp [charsLe, h]
          · subst h
            rcases ih ys with h2 | h2
            · left; simp [charsLe, lt_irrefl, h2]
            · right; simp [charsLe, lt_irrefl, h2]
          · right; simp [charsLe, h]

theorem charsLe_trans : ∀ {a b c : List Char},
    charsLe a b = true → charsLe b c = true → charsLe a c = true := by
  intro a
  induction a with
  | nil => intro b c _ _; rfl
  | cons x xs ih =>
      intro b c hab hbc
      cases b with
      | nil => simp [charsLe] at hab
      | cons y ys =>
          cases c with
          | nil => simp [charsLe] at hbc
          | cons z zs =>
              rcases lt_trichotomy x y with h1 | h1 | h1
              · rcases lt_trichotomy y z with h2 | h2 | h2
                · have h3 : x < z := lt_trans h1 h2
                  simp [charsLe, h3]
                · subst h2; simp [charsLe, h1]
                · have hny : ¬ y < z := lt_asymm h2
                  simp [charsLe, hny, h2] at hbc
              · subst h1
                rcases lt_trichotomy x z with h2 | h2 | h2
                · simp [charsLe, h2]
                · subst h2
                  have hxy : charsLe xs ys = true := by
                    simpa [charsLe, lt_irrefl] using hab
                  have hyz : charsLe ys zs = true := by
                    simpa [charsLe, lt_irrefl] using hbc
                  simp [charsLe, lt_irrefl, ih hxy hyz]
                · have hnx : ¬ x < z := lt_asymm h2
                  simp [charsLe, hnx, h2] at hbc
              · have hnx : ¬ x < y := lt_asymm h1
                simp [charsLe, hnx, h1] at hab

theorem charsLt_irrefl : ∀ a : List Char, charsLt a a = false := by
  intro a
  induction a with
  | nil => rfl
  | cons x xs ih => simp [charsLt, lt_irrefl, ih]

theorem charsLt_of_le_of_ne : ∀ {a b : List Char},
    charsLe a b = true → a ≠ b → charsLt a b = true := by
  intro a
  induction a with
  | nil =>
      intro b h hne
      cases b with
      | nil => exact absurd rfl hne
      | cons y ys => rfl
  | cons x xs ih =>
      intro b h hne
      cases b with
      | nil => simp [charsLe] at h
      | cons y ys =>
          rcases lt_trichotomy x y with hlt | heq | hgt
          · simp [charsLt, hlt]
          · subst heq
            have hxs : charsLe xs ys = true := by
              simpa [charsLe, lt_irrefl] using h
            have hne' : xs ≠ ys := fun hcon => hne (by rw [hcon])
            simp [charsLt, lt_irrefl, ih hxs hne']
          · have hnx : ¬ x < y := lt_asymm hgt
            simp [charsLe, hnx, hgt] at h

theorem dfsLtB_irrefl : ∀ a : List String, dfsLtB a a = false := by
  intro a
  induction a with
  | nil => rfl
  | cons x xs ih => simp [dfsLtB, ih]

theorem dfsLtB_ne {a b : List String} (h : dfsLtB a b = true) : a ≠ b := by
  intro heq
  subst heq
  rw [dfsLtB_irrefl] at h
  cases h

theorem dfsLtB_append : ∀ (c : List String) {a b : List String},
    dfsLtB a b = true → dfsLtB (c ++ a) (c ++ b) = true := by
  intro c
  induction c with
  | nil => intro a b h; simpa using h
  | cons x xs ih =>
      intro a b h
      simp only [List.cons_append]
      simp [dfsLtB, ih h]

theorem dfsLtB_cons {a b : String} (as bs : List String)
    (h : charsLt a.data b.data = true) :
    dfsLtB (a :: as) (b :: bs) = true := by
  have hne : a ≠ b := by
    intro hcon
    rw [hcon, charsLt_irrefl] at h
    cases h
  simp [dfsLtB, hne, h]

theorem insertByName_perm (e : Entry) : ∀ l : List Entry,
    (insertByName e l).Perm (e :: l) := by
  intro l
  induction l with
  | nil => exact List.Perm.refl _
  | cons f fs ih =>
      rw [insertByName]
      split
      · exact List.Perm.refl _
      · exact (ih.cons f).trans (List.Perm.swap e f fs)

theorem sortEntries_perm : ∀ es : List Entry, (sortEntries es).Perm es := by
  intro es
  induction es with
  | nil => exact List.Perm.refl _
  | cons e es ih =>
      rw [sortEntries]
      exact (insertByName_perm e (sortEntries es)).trans (ih.cons e)

theorem insertByName_sorted {e : Entry} : ∀ {l : List Entry},
    l.Pairwise (fun a b => charsLe a.name.data b.name.data = true) →
    (insertByName e l).Pairwise (fun a b => charsLe a.name.data b.name.data = true) := by
  intro l
  induction l with
  | nil =>
      intro _
      simp [insertByName]
  | cons f fs ih =>
      intro hp
      obtain ⟨hf, hfs⟩ := List.pairwise_cons.mp hp
      rw [insertByName]
      split
      · next hle =>
          refine List.pairwise_cons.mpr ⟨?_, hp⟩
          intro x hx
          rcases List.mem_cons.mp hx with rfl | hx2
          · exact hle
          · exact charsLe_trans hle (hf x hx2)
      · next hgt =>
          refine List.pairwise_cons.mpr ⟨?_, ih hfs⟩
          intro x hx
          rcases mem_insertByName.mp hx with h1 | hx2
          · rw [h1]
            rcases charsLe_total e.name.data f.name.data with h | h
            · exact absurd h hgt
            · exact h
          · exact hf x hx2

theorem sortEntries_sorted : ∀ es : List Entry,
    (sortEntries es).Pairwise (fun a b => charsLe a.name.data b.name.data = true) := by
  intro es
  induction es with
  | nil => simp [sortEntries]
  | cons e es ih =>
      rw [sortEntries]
      exact insertByName_sorted ih

theorem namesNodup_pairwise : ∀ {es : List Entry}, namesNodup es = true →
    es.Pairwise (fun a b => a.name ≠ b.name) := by
  intro es
  induction es with
  | nil => intro _; exact List.Pairwise.nil
  | cons e es' ih =>
      intro h
      rw [namesNodup] at h
      simp only [Bool.and_eq_true, Bool.not_eq_true'] at h
      obtain ⟨hhead, htail⟩ := h
      refine List.pairwise_cons.mpr ⟨?_, ih htail⟩
      intro x hx hcon
      have : x.name ∈ es'.map Entry.name := List.mem_map_of_mem _ hx
      rw [← hcon] at this
      have hc : (es'.map Entry.name).contains e.name = true := by simpa using this
      rw [hc] at hhead
      cases hhead

theorem sortEntries_strict {es : List Entry} (hnd : namesNodup es = true) :
    (sortEntries es).Pairwise
      (fun a b => charsLt a.name.data b.name.data = true) := by
  have hsorted := sortEntries_sorted es
  have hne : (sortEntries es).Pairwise (fun a b => a.name ≠ b.name) :=
    ((sortEntries_perm es).pairwise_iff
      (fun hxy => fun hcon => hxy hcon.symm)).mpr (namesNodup_pairwise hnd)
  refine (hsorted.and hne).imp ?_
  rintro a b ⟨hle, hne2⟩
  exact charsLt_of_le_of_ne hle (fun hcon => hne2 (String.ext hcon))

theorem findFiles_shape (gi : Option (String → Bool)) :
    ∀ (N : Nat) (e : Entry) (comps : List String), sizeOf e ≤ N → namesOk e = true →
      ∀ pc ∈ findFiles gi e comps,
        ∃ suffix, pc.1 = comps ++ suffix ∧ ∀ s ∈ suffix, goodName s = true := by
  intro N
  induction N with
  | zero =>
      intro e comps hs
      exfalso
      cases e with
      | file n rd c =>
          simp only [Entry.file.sizeOf_spec] at hs
          omega
      | dir n rd es =>
          simp only [Entry.dir.sizeOf_spec] at hs
          omega
  | succ N ih =>
      intro e comps hs hok pc hpc
      cases e with
      | file n rd content =>
          rw [findFiles_file] at hpc
          have hpc1 : pc.1 = comps := by
            by_cases h1 : giMatch gi (relOf comps) = true
            · simp [h1] at hpc
            · have h1' : giMatch gi (relOf comps) = false := by simpa using h1
              by_cases h2 : IsBinaryFile rd content = true
              · simp [h1', h2] at hpc
              · have h2' : IsBinaryFile rd content = false := by simpa using h2
                cases rd with
                | false => simp [h1', h2'] at hpc
                | true =>
                    simp only [h1', h2', Bool.false_eq_true, if_false, if_true,
                      List.mem_singleton] at hpc
                    rw [hpc]
          exact ⟨[], by simp [hpc1], by simp⟩
      | dir n rd es =>
          rw [findFiles_dir] at hpc
          cases rd with
          | false => simp at hpc
          | true =>
              rw [if_pos rfl] at hpc
              by_cases hskip : (!comps.isEmpty && giMatch gi (relOf comps)) = true
              · rw [if_pos hskip] at hpc
                simp at hpc
              · have hskip' : (!comps.isEmpty && giMatch gi (relOf comps)) = false := by
                  simpa using hskip
                rw [hskip'] at hpc
                simp only [Bool.false_eq_true, if_false, List.mem_flatten,
                  List.mem_map] at hpc
                obtain ⟨l, ⟨c, hc, rfl⟩, hpl⟩ := hpc
                have hcm : c ∈ es := mem_sortEntries.mp hc
                have hsz : sizeOf c ≤ N := by
                  have h1 := List.sizeOf_lt_of_mem hcm
                  simp only [Entry.dir.sizeOf_spec] at hs
                  omega
                have hcok : namesOk c = true := (namesOk_dir_iff.mp hok).2.2 c hcm
                obtain ⟨suffix', hsuf, hgood⟩ := ih c (comps ++ [c.name]) hsz hcok pc hpl
                refine ⟨c.name :: suffix', ?_, ?_⟩
                · rw [hsuf]
                  simp
                · intro s hs2
                  rcases List.mem_cons.mp hs2 with rfl | hs3
                  · exact namesOk_name hcok
                  · exact hgood s hs3

theorem findFiles_pairwise (gi : Option (String → Bool)) :
    ∀ (N : Nat) (e : Entry) (comps : List String), sizeOf e ≤ N → namesOk e = true →
      ((findFiles gi e comps).map Prod.fst).Pairwise
        (fun a b => dfsLtB a b = true) := by
  intro N
  induction N with
  | zero =>
      intro e comps hs
      exfalso
      cases e with
      | file n rd c =>
          simp only [Entry.file.sizeOf_spec] at hs
          omega
      | dir n rd es =>
          simp only [Entry.dir.sizeOf_spec] at hs
          omega
  | succ N ih =>
      intro e comps hs hok
      cases e with
      | file n rd content =>
          rw [findFiles_file]
          split
          · exact List.Pairwise.nil
          · split
            · exact List.Pairwise.nil
            · split
              · simp
              · exact List.Pairwise.nil
      | dir n rd es =>
          rw [findFiles_dir]
          cases rd with
          | false => exact List.Pairwise.nil
          | true =>
              rw [if_pos rfl]
              split
              · exact List.Pairwise.nil
              · rw [List.map_flatten, List.map_map]
                rw [List.pairwise_flatten]
                obtain ⟨-, hnd, hallok⟩ := namesOk_dir_iff.mp hok
                refine ⟨?_, ?_⟩
                · intro l hl
                  simp only [List.mem_map, Function.comp] at hl
                  obtain ⟨c, hc, rfl⟩ := hl
                  have hcm : c ∈ es := mem_sortEntries.mp hc
                  have hsz : sizeOf c ≤ N := by
                    have h1 := List.sizeOf_lt_of_mem hcm
                    simp only [Entry.dir.sizeOf_spec] at hs
                    omega
                  exact ih c (comps ++ [c.name]) hsz (hallok c hcm)
                · rw [List.pairwise_map]
                  have hstrict := sortEntries_strict hnd
                  refine hstrict.imp_of_mem ?_
                  intro c₁ c₂ hc₁ hc₂ hlt x hx y hy
                  simp only [Function.comp, List.mem_map] at hx hy
                  obtain ⟨pc₁, hpc₁, rfl⟩ := hx
                  obtain ⟨pc₂, hpc₂, rfl⟩ := hy
                  have hcm₁ : c₁ ∈ es := mem_sortEntries.mp hc₁
                  have hcm₂ : c₂ ∈ es := mem_sortEntries.mp hc₂
                  have hsz₁ : sizeOf c₁ ≤ N := by
                    have h1 := List.sizeOf_lt_of_mem hcm₁
                    simp only [Entry.dir.sizeOf_spec] at hs
                    omega
                  have hsz₂ : sizeOf c₂ ≤ N := by
                    have h1 := List.sizeOf_lt_of_mem hcm₂
                    simp only [Entry.dir.sizeOf_spec] at hs
                    omega
                  obtain ⟨s₁, hshape₁, -⟩ :=
                    findFiles_shape gi N c₁ (comps ++ [c₁.name]) hsz₁
                      (hallok c₁ hcm₁) pc₁ hpc₁
                  obtain ⟨s₂, hshape₂, -⟩ :=
                    findFiles_shape gi N c₂ (comps ++ [c₂.name]) hsz₂
                      (hallok c₂ hcm₂) pc₂ hpc₂
                  rw [hshape₁, hshape₂, List.append_assoc, List.append_assoc]
                  apply dfsLtB_append
                  simp only [List.singleton_append]
                  exact dfsLtB_cons s₁ s₂ hlt

theorem searchFileFrom_pairwise (path : String) (re : Regexp) :
    ∀ (lines : List (List Char)) (start : Nat),
      (searchFileFrom path re start lines).Pairwise
        (fun a b => a.Line < b.Line) := by
  intro lines
  induction lines with
  | nil => intro start; exact List.Pairwise.nil
  | cons line rest ih =>
      intro start
      simp only [searchFileFrom]
      rw [List.pairwise_append]
      refine ⟨?_, ih (start + 1), ?_⟩
      · split
        · simp
        · exact List.Pairwise.nil
      · intro a ha b hb
        have hb1 := searchFileFrom_line_ge hb
        split at ha
        · rcases List.mem_singleton.mp ha with rfl
          have : ((start : Int) + 1) ≤ b.Line := by exact_mod_cast hb1
          simp only []
          omega
        · simp at ha

theorem searchFileFrom_col (path : String) (re : Regexp) :
    ∀ {lines : List (List Char)} {start : Nat} {r : Result},
      r ∈ searchFileFrom path re start lines → 0 ≤ r.Column := by
  intro lines
  induction lines with
  | nil => intro start r h; simp [searchFileFrom] at h
  | cons line rest ih =>
      intro start r h
      simp only [searchFileFrom] at h
      rcases List.mem_append.mp h with h | h
      · split at h
        · rcases List.mem_singleton.mp h with rfl
          exact Int.ofNat_nonneg _
        · simp at h
      · exact ih h

/-- Claim C10: for a fixed tree and pattern, `Find`'s output is the
per-file concatenation of `searchFile` results over the walk's file list
`findFiles`, whose component chains are strictly increasing in the
depth-first lexical order `dfsLtB` produced by `filepath.Walk`; within a
single file path the line numbers strictly increase, and every record
has `Line ≥ 1` and `Column ≥ 0`.  (Determinism holds by construction:
the embedded `Find` is a pure function of tree and pattern.) -/
theorem find_dfs_order (re : Regexp) (root : String) (gi : Option (String → Bool))
    (tree : Entry) (rs : List Result)
    (hok : namesOk tree = true)
    (hfind : Find (some re) true root gi tree = .ok rs) :
    rs = (findFiles gi tree []).flatMap
        (fun pc => searchFile (fullPath root pc.1) re pc.2) ∧
    ((findFiles gi tree []).map Prod.fst).Pairwise (fun a b => dfsLtB a b = true) ∧
    rs.Pairwise (fun r₁ r₂ => r₁.Path = r₂.Path → r₁.Line < r₂.Line) ∧
    (∀ r ∈ rs, 1 ≤ r.Line ∧ 0 ≤ r.Column) := by
  have heq : rs = (findFiles gi tree []).flatMap
      (fun pc => searchFile (fullPath root pc.1) re pc.2) := by
    rw [find_ok hfind]
    exact walk_factors gi re root (sizeOf tree) tree [] (le_refl _)
  have hpw := findFiles_pairwise gi (sizeOf tree) tree [] (le_refl _) hok
  refine ⟨heq, hpw, ?_, ?_⟩
  · rw [heq, List.flatMap_def, List.pairwise_flatten]
    refine ⟨?_, ?_⟩
    · intro l hl
      simp only [List.mem_map] at hl
      obtain ⟨pc, hpc, rfl⟩ := hl
      have h1 := searchFileFrom_pairwise (fullPath root pc.1) re (scanLines pc.2) 1
      have h2 : (searchFile (fullPath root pc.1) re pc.2).Pairwise
          (fun r₁ r₂ => r₁.Path = r₂.Path → r₁.Line < r₂.Line) :=
        List.Pairwise.imp (fun hlt => fun _ => hlt) h1
      exact h2
    · have hcross : ((findFiles gi tree []).map
          (fun pc => searchFile (fullPath root pc.1) re pc.2)).Pairwise
          (fun l₁ l₂ => ∀ x ∈ l₁, ∀ y ∈ l₂, x.Path ≠ y.Path) := by
        rw [List.pairwise_map]
        have hpw2 := hpw
        rw [List.pairwise_map] at hpw2
        refine hpw2.imp_of_mem ?_
        intro pc₁ pc₂ hm₁ hm₂ hlt x hx y hy
        have hx1 : x.Path = fullPath root pc₁.1 := searchFile_path hx
        have hy1 : y.Path = fullPath root pc₂.1 := searchFile_path hy
        rw [hx1, hy1]
        intro hcon
        obtain ⟨s₁, hs₁, hg₁⟩ := findFiles_shape gi (sizeOf tree) tree []
          (le_refl _) hok pc₁ hm₁
        obtain ⟨s₂, hs₂, hg₂⟩ := findFiles_shape gi (sizeOf tree) tree []
          (le_refl _) hok pc₂ hm₂
        have hgood₁ : ∀ s ∈ pc₁.1, goodName s = true := by
          rw [hs₁]
          simpa using hg₁
        have hgood₂ : ∀ s ∈ pc₂.1, goodName s = true := by
          rw [hs₂]
          simpa using hg₂
        exact dfsLtB_ne hlt (fullPath_inj hgood₁ hgood₂ hcon)
      exact hcross.imp (fun hne => fun x hx y hy => fun hcon => absurd hcon (hne x hx y hy))
  · intro r hr
    rw [heq] at hr
    rw [List.mem_flatMap] at hr
    obtain ⟨pc, hpc, hrm⟩ := hr
    refine ⟨searchFileFrom_line_ge hrm, searchFileFrom_col (fullPath root pc.1) re hrm⟩

/-- Witness for C10 on the two-file tree of `evalFindBinarySample`. -/
theorem find_dfs_order_witness :
    ([({ Path := "R/a.txt", Line := 1, Column := 0, Match := "hello" } : Result)] =
      (findFiles none
        (.dir ("r") true
          [.file ("a.txt") true (("hello").data),
           .file ("b.txt") true ([Char.ofNat 0] ++ ("hello").data)]) []).flatMap
        (fun pc => searchFile (fullPath ("R") pc.1) (reLit ("hello")) pc.2)) ∧
    (((findFiles none
        (.dir ("r") true
          [.file ("a.txt") true (("hello").data),
           .file ("b.txt") true ([Char.ofNat 0] ++ ("hello").data)]) []).map
        Prod.fst).Pairwise (fun a b => dfsLtB a b = true)) ∧
    ([({ Path := "R/a.txt", Line := 1, Column := 0, Match := "hello" } : Result)].Pairwise
      (fun r₁ r₂ => r₁.Path = r₂.Path → r₁.Line < r₂.Line)) ∧
    (∀ r ∈ [({ Path := "R/a.txt", Line := 1, Column := 0, Match := "hello" } : Result)],
      1 ≤ r.Line ∧ 0 ≤ r.Column) :=
  find_dfs_order (reLit ("hello")) ("R") none
    (.dir ("r") true
      [.file ("a.txt") true (("hello").data),
       .file ("b.txt") true ([Char.ofNat 0] ++ ("hello").data)])
    [{ Path := "R/a.txt", Line := 1, Column := 0, Match := "hello" }]
    (by simp [namesOk, namesOkList, namesNodup, goodName, Entry.name])
    evalFindBinarySample

/-! ### Claim C7: category patterns never overlap on one line -/

theorem word_not_space {c : Char} (h : isWordChar c = true) : isGoSpace c = false := by
  have h1 : c ≠ ' ' := by
    intro hcon
    rw [hcon] at h
    exact absurd h (by decide)
  have h2 : c ≠ '\t' := by
    intro hcon
    rw [hcon] at h
    exact absurd h (by decide)
  have h3 : c ≠ '\n' := by
    intro hcon
    rw [hcon] at h
    exact absurd h (by decide)
  have h4 : c ≠ Char.ofNat 12 := by
    intro hcon
    rw [hcon] at h
    exact absurd h (by decide)
  have h5 : c ≠ '\r' := by
    intro hcon
    rw [hcon] at h
    exact absurd h (by decide)
  simp [isGoSpace, h1, h2, h3, h4, h5]

theorem space_not_word {c : Char} (h : isGoSpace c = true) : isWordChar c = false := by
  unfold isGoSpace at h
  simp only [Bool.or_eq_true, decide_eq_true_eq] at h
  rcases h with ((((rfl | rfl) | rfl) | rfl) | rfl) <;> decide

theorem takeWhile_append_cons {p : Char → Bool} :
    ∀ {as : List Char} (b : Char) (bs : List Char), (∀ c ∈ as, p c = true) → p b = false →
      (as ++ b :: bs).takeWhile p = as ∧ (as ++ b :: bs).dropWhile p = b :: bs := by
  intro as
  induction as with
  | nil =>
      intro b bs _ hb
      simp [List.takeWhile_cons, List.dropWhile_cons, hb]
  | cons a as' ih =>
      intro b bs hall hb
      have ha : p a = true := hall a (List.mem_cons_self _ _)
      have := ih b bs (fun c hc => hall c (List.mem_cons_of_mem _ hc)) hb
      simp [List.takeWhile_cons, List.dropWhile_cons, ha, this.1, this.2]

theorem word1_eq {l w r : List Char} (h : word1 l = some (w, r)) :
    w = l.takeWhile isWordChar ∧ r = l.dropWhile isWordChar ∧ w ≠ [] := by
  unfold word1 at h
  cases htw : l.takeWhile isWordChar with
  | nil =>
      rw [htw] at h
      have h' : (none : Option (List Char × List Char)) = some (w, r) := h
      cases h'
  | cons x xs =>
      rw [htw] at h
      have h' : some (x :: xs, l.dropWhile isWordChar) = some (w, r) := h
      rw [Option.some.injEq, Prod.mk.injEq] at h'
      obtain ⟨hw, hr⟩ := h'
      refine ⟨hw.symm, hr.symm, ?_⟩
      rw [← hw]
      simp

theorem word1_head {l w r : List Char} (h : word1 l = some (w, r)) :
    ∃ d t, l = d :: t ∧ isWordChar d = true := by
  obtain ⟨hw, -, hne⟩ := word1_eq h
  cases l with
  | nil =>
      exfalso
      apply hne
      rw [hw]
      rfl
  | cons d t =>
      refine ⟨d, t, rfl, ?_⟩
      by_cases hd : isWordChar d = true
      · exact hd
      · exfalso
        apply hne
        rw [hw]
        simp [List.takeWhile_cons, hd]

theorem word1_of_split {kw : List Char} {b : Char} {bs : List Char}
    (hkw : ∀ c ∈ kw, isWordChar c = true) (hne : kw ≠ [])
    (hb : isWordChar b = false) :
    word1 (kw ++ b :: bs) = some (kw, b :: bs) := by
  obtain ⟨htake, hdrop⟩ := takeWhile_append_cons b bs hkw hb
  cases kw with
  | nil => exact absurd rfl hne
  | cons k kt =>
      unfold word1
      rw [htake]
      show (some (k :: kt, List.dropWhile isWordChar (k :: kt ++ b :: bs)) :
        Option (List Char × List Char)) = some (k :: kt, b :: bs)
      rw [hdrop]

theorem dropSpaces1_eq {l r : List Char} (h : dropSpaces1 l = some r) :
    ∃ c rest, l = c :: rest ∧ isGoSpace c = true ∧ r = rest.dropWhile isGoSpace := by
  cases l with
  | nil =>
      have h' : (none : Option (List Char)) = some r := h
      cases h'
  | cons c rest =>
      have h' : (if isGoSpace c then some (rest.dropWhile isGoSpace) else none) = some r := h
      by_cases hc : isGoSpace c = true
      · rw [if_pos hc] at h'
        rw [Option.some.injEq] at h'
        exact ⟨c, rest, rfl, hc, h'.symm⟩
      · rw [if_neg hc] at h'
        cases h'

theorem tryStripKw_cases (kw : String) (l : List Char) :
    tryStripKw kw l = l ∨
    ∃ c rest, stripLit kw l = some (c :: rest) ∧ isGoSpace c = true ∧
      tryStripKw kw l = rest.dropWhile isGoSpace := by
  cases hs : stripLit kw l with
  | none =>
      left
      unfold tryStripKw
      rw [hs]
  | some r =>
      cases hd : dropSpaces1 r with
      | none =>
          left
          unfold tryStripKw
          rw [hs]
          show (match dropSpaces1 r with
            | none => l
            | some r2 => r2) = l
          rw [hd]
      | some r2 =>
          right
          obtain ⟨c, rest, rfl, hsp, hr2⟩ := dropSpaces1_eq hd
          refine ⟨c, rest, rfl, hsp, ?_⟩
          unfold tryStripKw
          rw [hs]
          show (match dropSpaces1 (c :: rest) with
            | none => l
            | some r2 => r2) = rest.dropWhile isGoSpace
          rw [hd]
          exact hr2

theorem dropWhile_isDrop {p : Char → Bool} (l : List Char) :
    ∃ k, l.dropWhile p = l.drop k := by
  refine ⟨(l.takeWhile p).length, ?_⟩
  have h : List.takeWhile p l ++ List.dropWhile p l = l :=
    List.takeWhile_append_dropWhile p l
  calc List.dropWhile p l
      = List.drop (List.takeWhile p l).length
          (List.takeWhile p l ++ List.dropWhile p l) := (List.drop_left _ _).symm
    _ = List.drop (List.takeWhile p l).length l := by rw [h]

theorem subFrom_isSome {hay nee : List Char} :
    ∀ (fuel start k : Nat), start ≤ k → k ≤ start + fuel →
      nee.isPrefixOf (hay.drop k) = true → (subFrom hay nee start fuel).isSome = true := by
  intro fuel
  induction fuel with
  | zero =>
      intro start k h1 h2 h3
      have hk : k = start := by omega
      subst hk
      simp [subFrom, h3]
  | succ n ih =>
      intro start k h1 h2 h3
      by_cases hp : nee.isPrefixOf (hay.drop start) = true
      · simp [subFrom, hp]
      · have hp' : nee.isPrefixOf (hay.drop start) = false := Bool.eq_false_iff.mpr hp
        rcases Nat.eq_or_lt_of_le h1 with rfl | hlt
        · rw [h3] at hp'
          cases hp'
        · simp only [subFrom, hp', Bool.false_eq_true, if_false]
          exact ih (start + 1) k (by omega) (by omega) h3

theorem hasSub_of_drop {hay nee : List Char} {k : Nat} (hne : nee ≠ [])
    (h : nee.isPrefixOf (hay.drop k) = true) : hasSub hay nee = true := by
  by_cases hk : k ≤ hay.length
  · exact subFrom_isSome hay.length 0 k (by omega) (by omega) h
  · exfalso
    have hdrop : hay.drop k = [] := List.drop_eq_nil_of_le (by omega)
    rw [hdrop] at h
    cases nee with
    | nil => exact hne rfl
    | cons x xs => simp [List.isPrefixOf] at h

theorem head_clash {a b : Char} {as bs : List Char} (hne : a ≠ b)
    (h : a :: as = b :: bs) : False := by
  injection h with h1 _
  exact hne h1

theorem goFuncCapture_strip {l w : List Char} (h : goFuncCapture l = some w) :
    ∃ r, stripLit ("func") (l.dropWhile isGoSpace) = some r := by
  cases hs : stripLit ("func") (l.dropWhile isGoSpace) with
  | some r => exact ⟨r, rfl⟩
  | none =>
      exfalso
      unfold goFuncCapture at h
      rw [hs] at h
      have h' : (none : Option (List Char)) = some w := h
      cases h'

theorem goTypeCapture_strip {l w : List Char} (h : goTypeCapture l = some w) :
    ∃ r, stripLit ("type") (l.dropWhile isGoSpace) = some r := by
  cases hs : stripLit ("type") (l.dropWhile isGoSpace) with
  | some r => exact ⟨r, rfl⟩
  | none =>
      exfalso
      unfold goTypeCapture at h
      rw [hs] at h
      have h' : (none : Option (List Char)) = some w := h
      cases h'

theorem goVarCapture_strip {l w : List Char} (h : goVarCapture l = some w) :
    (∃ r, stripLit ("const") (l.dropWhile isGoSpace) = some r) ∨
    (∃ r, stripLit ("var") (l.dropWhile isGoSpace) = some r) := by
  cases hc : stripLit ("const") (l.dropWhile isGoSpace) with
  | some r => exact Or.inl ⟨r, rfl⟩
  | none =>
      cases hv : stripLit ("var") (l.dropWhile isGoSpace) with
      | some r => exact Or.inr ⟨r, rfl⟩
      | none =>
          exfalso
          unfold goVarCapture at h
          rw [hc, hv] at h
          have h' : (none : Option (List Char)) = some w := h
          cases h'

theorem go_ft {l w w' : List Char} (hf : goFuncCapture l = some w)
    (ht : goTypeCapture l = some w') : False := by
  obtain ⟨r1, h1⟩ := goFuncCapture_strip hf
  obtain ⟨r2, h2⟩ := goTypeCapture_strip ht
  have e := (stripLit_eq h1).symm.trans (stripLit_eq h2)
  have e' : 'f' :: 'u' :: 'n' :: 'c' :: r1 = 't' :: 'y' :: 'p' :: 'e' :: r2 := e
  exact head_clash (by decide) e'

theorem go_fv {l w w' : List Char} (hf : goFuncCapture l = some w)
    (hv : goVarCapture l = some w') : False := by
  obtain ⟨r1, h1⟩ := goFuncCapture_strip hf
  rcases goVarCapture_strip hv with ⟨r2, h2⟩ | ⟨r2, h2⟩
  · have e := (stripLit_eq h1).symm.trans (stripLit_eq h2)
    have e' : 'f' :: 'u' :: 'n' :: 'c' :: r1 = 'c' :: 'o' :: 'n' :: 's' :: 't' :: r2 := e
    exact head_clash (by decide) e'
  · have e := (stripLit_eq h1).symm.trans (stripLit_eq h2)
    have e' : 'f' :: 'u' :: 'n' :: 'c' :: r1 = 'v' :: 'a' :: 'r' :: r2 := e
    exact head_clash (by decide) e'

theorem go_tv {l w w' : List Char} (ht : goTypeCapture l = some w)
    (hv : goVarCapture l = some w') : False := by
  obtain ⟨r1, h1⟩ := goTypeCapture_strip ht
  rcases goVarCapture_strip hv with ⟨r2, h2⟩ | ⟨r2, h2⟩
  · have e := (stripLit_eq h1).symm.trans (stripLit_eq h2)
    have e' : 't' :: 'y' :: 'p' :: 'e' :: r1 = 'c' :: 'o' :: 'n' :: 's' :: 't' :: r2 := e
    exact head_clash (by decide) e'
  · have e := (stripLit_eq h1).symm.trans (stripLit_eq h2)
    have e' : 't' :: 'y' :: 'p' :: 'e' :: r1 = 'v' :: 'a' :: 'r' :: r2 := e
    exact head_clash (by decide) e'

theorem mem_capture_block {i : Nat} {line : List Char} {s : Symbol}
    {cap : Option (List Char)} {kind : String}
    (h : s ∈ (match cap with
      | some w => [mkSymbol line i w kind]
      | none => ([] : List Symbol))) : s.Line = (i : Int) + 1 := by
  cases cap with
  | none =>
      have h' : s ∈ ([] : List Symbol) := h
      simp at h'
  | some w =>
      have h' : s ∈ [mkSymbol line i w kind] := h
      rw [List.mem_singleton] at h'
      rw [h']
      rfl

theorem goLineSymbols_line {i : Nat} {line : List Char} {s : Symbol}
    (h : s ∈ goLineSymbols i line) : s.Line = (i : Int) + 1 := by
  unfold goLineSymbols at h
  rcases List.mem_append.mp h with h1 | h1
  · rcases List.mem_append.mp h1 with h2 | h2
    · exact mem_capture_block h2
    · exact mem_capture_block h2
  · exact mem_capture_block h1

theorem goLineSymbols_card (i : Nat) (line : List Char) :
    (goLineSymbols i line).length ≤ 1 := by
  unfold goLineSymbols
  cases hf : goFuncCapture line with
  | some w =>
      have ht : goTypeCapture line = none := by
        cases ht2 : goTypeCapture line with
        | none => rfl
        | some w2 => exact (go_ft hf ht2).elim
      have hv : goVarCapture line = none := by
        cases hv2 : goVarCapture line with
        | none => rfl
        | some w2 => exact (go_fv hf hv2).elim
      rw [ht, hv]
      simp
  | none =>
      cases ht : goTypeCapture line with
      | some w =>
          have hv : goVarCapture line = none := by
            cases hv2 : goVarCapture line with
            | none => rfl
            | some w2 => exact (go_tv ht hv2).elim
          rw [hv]
          simp
      | none =>
          cases hv : goVarCapture line with
          | some w => simp
          | none => simp

theorem jsFunc_strip {l w : List Char} (h : jsFuncCapture l = some w) :
    ∃ r, stripLit ("function")
      (tryStripKw ("async") (tryStripKw ("export") (l.dropWhile isGoSpace))) = some r := by
  cases hs : stripLit ("function")
      (tryStripKw ("async") (tryStripKw ("export") (l.dropWhile isGoSpace))) with
  | some r => exact ⟨r, rfl⟩
  | none =>
      exfalso
      unfold jsFuncCapture at h
      rw [hs] at h
      have h' : (none : Option (List Char)) = some w := h
      cases h'

theorem jsClass_strip {l w : List Char} (h : jsClassCapture l = some w) :
    ∃ r, stripLit ("class") (tryStripKw ("export") (l.dropWhile isGoSpace)) = some r := by
  cases hs : stripLit ("class") (tryStripKw ("export") (l.dropWhile isGoSpace)) with
  | some r => exact ⟨r, rfl⟩
  | none =>
      exfalso
      unfold jsClassCapture at h
      rw [hs] at h
      have h' : (none : Option (List Char)) = some w := h
      cases h'

theorem jsVar_strip {l w : List Char} (h : jsVarCapture l = some w) :
    (∃ r, stripLit ("const") (tryStripKw ("export") (l.dropWhile isGoSpace)) = some r) ∨
    (∃ r, stripLit ("let") (tryStripKw ("export") (l.dropWhile isGoSpace)) = some r) ∨
    (∃ r, stripLit ("var") (tryStripKw ("export") (l.dropWhile isGoSpace)) = some r) := by
  cases hc : stripLit ("const") (tryStripKw ("export") (l.dropWhile isGoSpace)) with
  | some r => exact Or.inl ⟨r, rfl⟩
  | none =>
      cases hl : stripLit ("let") (tryStripKw ("export") (l.dropWhile isGoSpace)) with
      | some r => exact Or.inr (Or.inl ⟨r, rfl⟩)
      | none =>
          cases hv : stripLit ("var") (tryStripKw ("export") (l.dropWhile isGoSpace)) with
          | some r => exact Or.inr (Or.inr ⟨r, rfl⟩)
          | none =>
              exfalso
              unfold jsVarCapture at h
              rw [hc, hl, hv] at h
              have h' : (none : Option (List Char)) = some w := h
              cases h'

theorem js_fc {l w w' : List Char} (hf : jsFuncCapture l = some w)
    (hc : jsClassCapture l = some w') : False := by
  obtain ⟨r1, h1⟩ := jsFunc_strip hf
  obtain ⟨r2, h2⟩ := jsClass_strip hc
  have hc2 : tryStripKw ("export") (l.dropWhile isGoSpace) = ("class").data ++ r2 :=
    stripLit_eq h2
  rcases tryStripKw_cases ("async") (tryStripKw ("export") (l.dropWhile isGoSpace)) with
    ha | ⟨c0, r0, ha0, hsp0, ha⟩
  · rw [ha] at h1
    have e := (stripLit_eq h1).symm.trans hc2
    have e' : 'f' :: 'u' :: 'n' :: 'c' :: 't' :: 'i' :: 'o' :: 'n' :: r1 =
      'c' :: 'l' :: 'a' :: 's' :: 's' :: r2 := e
    exact head_clash (by decide) e'
  · have e := (stripLit_eq ha0).symm.trans hc2
    have e' : 'a' :: 's' :: 'y' :: 'n' :: 'c' :: c0 :: r0 =
      'c' :: 'l' :: 'a' :: 's' :: 's' :: r2 := e
    exact head_clash (by decide) e'

theorem js_fv {l w w' : List Char} (hf : jsFuncCapture l = some w)
    (hv : jsVarCapture l = some w') : False := by
  obtain ⟨r1, h1⟩ := jsFunc_strip hf
  have hkw : ∃ s : String, (s = "const" ∨ s = "let" ∨ s = "var") ∧
      ∃ r2, stripLit s (tryStripKw ("export") (l.dropWhile isGoSpace)) = some r2 := by
    rcases jsVar_strip hv with ⟨r2, h2⟩ | ⟨r2, h2⟩ | ⟨r2, h2⟩
    · exact ⟨"const", Or.inl rfl, r2, h2⟩
    · exact ⟨"let", Or.inr (Or.inl rfl), r2, h2⟩
    · exact ⟨"var", Or.inr (Or.inr rfl), r2, h2⟩
  obtain ⟨s, hs, r2, h2⟩ := hkw
  have hv2 : tryStripKw ("export") (l.dropWhile isGoSpace) = s.data ++ r2 :=
    stripLit_eq h2
  rcases tryStripKw_cases ("async") (tryStripKw ("export") (l.dropWhile isGoSpace)) with
    ha | ⟨c0, r0, ha0, hsp0, ha⟩
  · rw [ha] at h1
    have e := (stripLit_eq h1).symm.trans hv2
    rcases hs with rfl | rfl | rfl
    · have e' : 'f' :: 'u' :: 'n' :: 'c' :: 't' :: 'i' :: 'o' :: 'n' :: r1 =
        'c' :: 'o' :: 'n' :: 's' :: 't' :: r2 := e
      exact head_clash (by decide) e'
    · have e' : 'f' :: 'u' :: 'n' :: 'c' :: 't' :: 'i' :: 'o' :: 'n' :: r1 =
        'l' :: 'e' :: 't' :: r2 := e
      exact head_clash (by decide) e'
    · have e' : 'f' :: 'u' :: 'n' :: 'c' :: 't' :: 'i' :: 'o' :: 'n' :: r1 =
        'v' :: 'a' :: 'r' :: r2 := e
      exact head_clash (by decide) e'
  · have e := (stripLit_eq ha0).symm.trans hv2
    rcases hs with rfl | rfl | rfl
    · have e' : 'a' :: 's' :: 'y' :: 'n' :: 'c' :: c0 :: r0 =
        'c' :: 'o' :: 'n' :: 's' :: 't' :: r2 := e
      exact head_clash (by decide) e'
    · have e' : 'a' :: 's' :: 'y' :: 'n' :: 'c' :: c0 :: r0 =
        'l' :: 'e' :: 't' :: r2 := e
      exact head_clash (by decide) e'
    · have e' : 'a' :: 's' :: 'y' :: 'n' :: 'c' :: c0 :: r0 =
        'v' :: 'a' :: 'r' :: r2 := e
      exact head_clash (by decide) e'

theorem js_cv {l w w' : List Char} (hc : jsClassCapture l = some w)
    (hv : jsVarCapture l = some w') : False := by
  obtain ⟨r1, h1⟩ := jsClass_strip hc
  have hc2 : tryStripKw ("export") (l.dropWhile isGoSpace) = ("class").data ++ r1 :=
    stripLit_eq h1
  rcases jsVar_strip hv with ⟨r2, h2⟩ | ⟨r2, h2⟩ | ⟨r2, h2⟩
  · have e := hc2.symm.trans (stripLit_eq h2)
    have e' : 'c' :: 'l' :: 'a' :: 's' :: 's' :: r1 =
      'c' :: 'o' :: 'n' :: 's' :: 't' :: r2 := e
    injection e' with _ e''
    injection e'' with h3 _
    exact absurd h3 (by decide)
  · have e := hc2.symm.trans (stripLit_eq h2)
    have e' : 'c' :: 'l' :: 'a' :: 's' :: 's' :: r1 = 'l' :: 'e' :: 't' :: r2 := e
    exact head_clash (by decide) e'
  · have e := hc2.symm.trans (stripLit_eq h2)
    have e' : 'c' :: 'l' :: 'a' :: 's' :: 's' :: r1 = 'v' :: 'a' :: 'r' :: r2 := e
    exact head_clash (by decide) e'

theorem kwTail_inv {r2 w : List Char}
    (h : (match dropSpaces1 r2 with
      | none => none
      | some r3 =>
          match word1 r3 with
          | none => none
          | some (w, _) => some w) = some w) :
    ∃ c rest d t, r2 = c :: rest ∧ isGoSpace c = true ∧
      rest.dropWhile isGoSpace = d :: t ∧ isWordChar d = true := by
  cases hd : dropSpaces1 r2 with
  | none =>
      rw [hd] at h
      have h' : (none : Option (List Char)) = some w := h
      cases h'
  | some r3 =>
      rw [hd] at h
      have h2 : (match word1 r3 with
        | none => none
        | some (w, _) => some w) = some w := h
      obtain ⟨c, rest, hr2, hsp, hr3⟩ := dropSpaces1_eq hd
      cases hw : word1 r3 with
      | none =>
          rw [hw] at h2
          have h' : (none : Option (List Char)) = some w := h2
          cases h'
      | some p =>
          obtain ⟨w2, r5⟩ := p
          obtain ⟨d, t, hr3d, hwd⟩ := word1_head hw
          refine ⟨c, rest, d, t, hr2, hsp, ?_, hwd⟩
          rw [← hr3]
          exact hr3d

theorem js_kw_shape {l : List Char} {s : String} {r2 : List Char}
    (hsall : ∀ c ∈ s.data, isWordChar c = true) (hsne : s.data ≠ [])
    (hstrip : stripLit s (tryStripKw ("export") (l.dropWhile isGoSpace)) = some r2)
    (htail : ∃ c rest, r2 = c :: rest ∧ isGoSpace c = true ∧
      ∃ d t, rest.dropWhile isGoSpace = d :: t ∧ isWordChar d = true) :
    ∃ kw rest, (∀ c ∈ kw, isWordChar c = true) ∧ kw ≠ [] ∧
      l.dropWhile isGoSpace = kw ++ rest ∧
      (∃ c rest', rest = c :: rest' ∧ isGoSpace c = true) ∧
      (∃ d t, rest.dropWhile isGoSpace = d :: t ∧ isWordChar d = true) := by
  rcases tryStripKw_cases ("export") (l.dropWhile isGoSpace) with
    hexp | ⟨c0, rest0, hstrip0, hsp0, hexp⟩
  · obtain ⟨c, rest, hr2, hsp, d, t, hdrop, hwd⟩ := htail
    refine ⟨s.data, r2, hsall, hsne, ?_, ⟨c, rest, hr2, hsp⟩, ?_⟩
    · have h1 : tryStripKw ("export") (l.dropWhile isGoSpace) = s.data ++ r2 :=
        stripLit_eq hstrip
      rw [hexp] at h1
      exact h1
    · refine ⟨d, t, ?_, hwd⟩
      rw [hr2, List.dropWhile_cons, if_pos hsp]
      exact hdrop
  · refine ⟨("export").data, c0 :: rest0, by decide, by decide, stripLit_eq hstrip0,
      ⟨c0, rest0, rfl, hsp0⟩, ?_⟩
    have hR : tryStripKw ("export") (l.dropWhile isGoSpace) = s.data ++ r2 :=
      stripLit_eq hstrip
    rw [hexp] at hR
    cases hsd : s.data with
    | nil => exact absurd hsd hsne
    | cons d dt =>
        refine ⟨d, dt ++ r2, ?_, hsall d (by rw [hsd]; exact List.mem_cons_self _ _)⟩
        rw [List.dropWhile_cons, if_pos hsp0, hR, hsd]
        rfl

theorem jsClass_shape {l w : List Char} (h : jsClassCapture l = some w) :
    ∃ kw rest, (∀ c ∈ kw, isWordChar c = true) ∧ kw ≠ [] ∧
      l.dropWhile isGoSpace = kw ++ rest ∧
      (∃ c rest', rest = c :: rest' ∧ isGoSpace c = true) ∧
      (∃ d t, rest.dropWhile isGoSpace = d :: t ∧ isWordChar d = true) := by
  obtain ⟨r2, hstrip⟩ := jsClass_strip h
  have htail : (match dropSpaces1 r2 with
      | none => none
      | some r3 =>
          match word1 r3 with
          | none => none
          | some (w, _) => some w) = some w := by
    unfold jsClassCapture at h
    rw [hstrip] at h
    exact h
  obtain ⟨c, rest, d, t, hr2, hsp, hdrop, hwd⟩ := kwTail_inv htail
  exact js_kw_shape (by decide) (by decide) hstrip ⟨c, rest, hr2, hsp, d, t, hdrop, hwd⟩

theorem jsVar_shape {l w : List Char} (h : jsVarCapture l = some w) :
    ∃ kw rest, (∀ c ∈ kw, isWordChar c = true) ∧ kw ≠ [] ∧
      l.dropWhile isGoSpace = kw ++ rest ∧
      (∃ c rest', rest = c :: rest' ∧ isGoSpace c = true) ∧
      (∃ d t, rest.dropWhile isGoSpace = d :: t ∧ isWordChar d = true) := by
  unfold jsVarCapture at h
  cases hc : stripLit ("const") (tryStripKw ("export") (l.dropWhile isGoSpace)) with
  | some r2 =>
      rw [hc] at h
      obtain ⟨c, rest, d, t, hr2, hsp, hdrop, hwd⟩ := kwTail_inv h
      exact js_kw_shape (by decide) (by decide) hc ⟨c, rest, hr2, hsp, d, t, hdrop, hwd⟩
  | none =>
      rw [hc] at h
      cases hl : stripLit ("let") (tryStripKw ("export") (l.dropWhile isGoSpace)) with
      | some r2 =>
          rw [hl] at h
          obtain ⟨c, rest, d, t, hr2, hsp, hdrop, hwd⟩ := kwTail_inv h
          exact js_kw_shape (by decide) (by decide) hl
            ⟨c, rest, hr2, hsp, d, t, hdrop, hwd⟩
      | none =>
          rw [hl] at h
          cases hv : stripLit ("var") (tryStripKw ("export") (l.dropWhile isGoSpace)) with
          | some r2 =>
              rw [hv] at h
              obtain ⟨c, rest, d, t, hr2, hsp, hdrop, hwd⟩ := kwTail_inv h
              exact js_kw_shape (by decide) (by decide) hv
                ⟨c, rest, hr2, hsp, d, t, hdrop, hwd⟩
          | none =>
              rw [hv] at h
              have h' : (none : Option (List Char)) = some w := h
              cases h'

theorem jsMethod_none_of_shape {l : List Char} {kw rest : List Char}
    (hkw : ∀ c ∈ kw, isWordChar c = true) (hne : kw ≠ [])
    (hsplit : l.dropWhile isGoSpace = kw ++ rest)
    (hsp : ∃ c rest', rest = c :: rest' ∧ isGoSpace c = true)
    (hword : ∃ d t, rest.dropWhile isGoSpace = d :: t ∧ isWordChar d = true) :
    jsMethodCapture l = none := by
  obtain ⟨c, rest', rfl, hspc⟩ := hsp
  obtain ⟨d, t, hdrop, hwd⟩ := hword
  have hw1 : word1 (l.dropWhile isGoSpace) = some (kw, c :: rest') := by
    rw [hsplit]
    exact word1_of_split hkw hne (space_not_word hspc)
  unfold jsMethodCapture
  rw [hw1]
  have hdrop2 : (c :: rest').dropWhile isGoSpace = d :: t := hdrop
  show (match (c :: rest').dropWhile isGoSpace with
    | '(' :: rest =>
        match rest.dropWhile (fun c => c != ')') with
        | ')' :: r4 =>
            match r4.dropWhile isGoSpace with
            | '{' :: _ => some kw
            | _ => none
        | _ => none
    | _ => none) = none
  rw [hdrop2]
  have hdne : d ≠ '(' := by
    intro hcon
    rw [hcon] at hwd
    exact absurd hwd (by decide)
  split
  · rename_i rest heq
    injection heq with h1 h2
    exact absurd h1 hdne
  · rfl

theorem tryStripKw_isDrop (kw : String) (l : List Char) :
    ∃ k, tryStripKw kw l = l.drop k := by
  rcases tryStripKw_cases kw l with h | ⟨c, rest, hs, hsp, h⟩
  · refine ⟨0, ?_⟩
    rw [List.drop_zero]
    exact h
  · have hl : l = kw.data ++ c :: rest := stripLit_eq hs
    obtain ⟨m, hm⟩ := @dropWhile_isDrop isGoSpace rest
    refine ⟨kw.data.length + (m + 1), ?_⟩
    rw [h, hm, hl, ← List.drop_drop, List.drop_left, List.drop_succ_cons]

theorem jsFunc_contains {l w : List Char} (h : jsFuncCapture l = some w) :
    hasSub l (("function").data) = true := by
  obtain ⟨r2, hst⟩ := jsFunc_strip h
  obtain ⟨k0, h0⟩ := @dropWhile_isDrop isGoSpace l
  obtain ⟨k1, h1⟩ := tryStripKw_isDrop ("export") (l.dropWhile isGoSpace)
  obtain ⟨k2, h2⟩ := tryStripKw_isDrop ("async")
      (tryStripKw ("export") (l.dropWhile isGoSpace))
  have hpre : ("function").data.isPrefixOf
      (tryStripKw ("async") (tryStripKw ("export") (l.dropWhile isGoSpace))) = true :=
    exists_isPrefixOf (stripLit_eq hst).symm
  rw [h2, h1, h0, List.drop_drop, List.drop_drop] at hpre
  exact hasSub_of_drop (by decide) hpre

theorem jsLineSymbols_line {i : Nat} {line : List Char} {s : Symbol}
    (h : s ∈ jsLineSymbols i line) : s.Line = (i : Int) + 1 := by
  unfold jsLineSymbols at h
  rcases List.mem_append.mp h with h1 | h1
  · rcases List.mem_append.mp h1 with h2 | h2
    · rcases List.mem_append.mp h2 with h3 | h3
      · exact mem_capture_block h3
      · exact mem_capture_block h3
    · exact mem_capture_block h2
  · cases hm : jsMethodCapture line with
    | none =>
        rw [hm] at h1
        have h2 : s ∈ ([] : List Symbol) := h1
        simp at h2
    | some w =>
        rw [hm] at h1
        have h2 : s ∈ (if hasSub line (("function").data) then []
          else [mkSymbol line i w ("method")]) := h1
        by_cases hsub : hasSub line (("function").data) = true
        · rw [if_pos hsub] at h2
          simp at h2
        · rw [if_neg hsub] at h2
          rw [List.mem_singleton] at h2
          rw [h2]
          rfl

theorem jsLineSymbols_card (i : Nat) (line : List Char) :
    (jsLineSymbols i line).length ≤ 1 := by
  unfold jsLineSymbols
  cases hf : jsFuncCapture line with
  | some w =>
      have hc : jsClassCapture line = none := by
        cases h2 : jsClassCapture line with
        | none => rfl
        | some w2 => exact (js_fc hf h2).elim
      have hv : jsVarCapture line = none := by
        cases h2 : jsVarCapture line with
        | none => rfl
        | some w2 => exact (js_fv hf h2).elim
      have hsub : hasSub line (("function").data) = true := jsFunc_contains hf
      rw [hc, hv]
      cases hm : jsMethodCapture line with
      | none => simp
      | some w2 => simp [hsub]
  | none =>
      cases hc : jsClassCapture line with
      | some w =>
          have hv : jsVarCapture line = none := by
            cases h2 : jsVarCapture line with
            | none => rfl
            | some w2 => exact (js_cv hc h2).elim
          obtain ⟨kw, rest, hkw, hne, hsplit, hsp, hword⟩ := jsClass_shape hc
          have hm : jsMethodCapture line = none :=
            jsMethod_none_of_shape hkw hne hsplit hsp hword
          rw [hv, hm]
          simp
      | none =>
          cases hv : jsVarCapture line with
          | some w =>
              obtain ⟨kw, rest, hkw, hne, hsplit, hsp, hword⟩ := jsVar_shape hv
              have hm : jsMethodCapture line = none :=
                jsMethod_none_of_shape hkw hne hsplit hsp hword
              rw [hm]
              simp
          | none =>
              cases hm : jsMethodCapture line with
              | some w =>
                  by_cases hsub : hasSub line (("function").data) = true
                  · simp [hsub]
                  · simp [hsub]
              | none => simp

theorem pyFuncTail_inv {r w : List Char}
    (h : (match dropSpaces1 r with
      | none => none
      | some r2 =>
          match word1 r2 with
          | none => none
          | some (w, r3) =>
              match r3.dropWhile isGoSpace with
              | '(' :: _ => some w
              | _ => none) = some w) :
    ∃ c rest d t, r = c :: rest ∧ isGoSpace c = true ∧
      rest.dropWhile isGoSpace = d :: t ∧ isWordChar d = true := by
  cases hd : dropSpaces1 r with
  | none =>
      rw [hd] at h
      have h' : (none : Option (List Char)) = some w := h
      cases h'
  | some r2 =>
      rw [hd] at h
      have h2 : (match word1 r2 with
        | none => none
        | some (w, r3) =>
            match r3.dropWhile isGoSpace with
            | '(' :: _ => some w
            | _ => none) = some w := h
      obtain ⟨c, rest, hr, hc, hr2⟩ := dropSpaces1_eq hd
      cases hw : word1 r2 with
      | none =>
          rw [hw] at h2
          have h' : (none : Option (List Char)) = some w := h2
          cases h'
      | some p =>
          obtain ⟨w2, r5⟩ := p
          obtain ⟨d, t, hr2d, hdw⟩ := word1_head hw
          refine ⟨c, rest, d, t, hr, hc, ?_, hdw⟩
          rw [← hr2]
          exact hr2d

theorem pyFunc_strip {l w : List Char} (h : pyFuncCapture l = some w) :
    ∃ r, stripLit ("def") (l.dropWhile isGoSpace) = some r := by
  cases hs : stripLit ("def") (l.dropWhile isGoSpace) with
  | some r => exact ⟨r, rfl⟩
  | none =>
      exfalso
      unfold pyFuncCapture at h
      rw [hs] at h
      have h' : (none : Option (List Char)) = some w := h
      cases h'

theorem pyClass_strip {l w : List Char} (h : pyClassCapture l = some w) :
    ∃ r, stripLit ("class") (l.dropWhile isGoSpace) = some r := by
  cases hs : stripLit ("class") (l.dropWhile isGoSpace) with
  | some r => exact ⟨r, rfl⟩
  | none =>
      exfalso
      unfold pyClassCapture at h
      rw [hs] at h
      have h' : (none : Option (List Char)) = some w := h
      cases h'

theorem pyVar_inv {l w : List Char} (h : pyVarCapture l = some w) :
    ∃ rv tv, word1 l = some (w, rv) ∧ rv.dropWhile isGoSpace = '=' :: tv := by
  unfold pyVarCapture at h
  cases hw : word1 l with
  | none =>
      rw [hw] at h
      have h' : (none : Option (List Char)) = some w := h
      cases h'
  | some p =>
      obtain ⟨w0, rv⟩ := p
      rw [hw] at h
      have h2 : (match rv.dropWhile isGoSpace with
        | '=' :: _ => some w0
        | _ => none) = some w := h
      cases hd : rv.dropWhile isGoSpace with
      | nil =>
          rw [hd] at h2
          have h' : (none : Option (List Char)) = some w := h2
          cases h'
      | cons c t =>
          rw [hd] at h2
          split at h2
          · rename_i tv heq
            injection heq with hc ht
            injection h2 with hw0
            refine ⟨rv, tv, ?_, ?_⟩
            · rw [hw0]
            · rw [hd, hc, ht]
          · exact absurd h2 (by simp)

theorem py_kw_var_clash {l w r : List Char} {kw : String}
    (hkwall : ∀ c ∈ kw.data, isWordChar c = true) (hkwne : kw.data ≠ [])
    (hstrip : stripLit kw (l.dropWhile isGoSpace) = some r)
    (htail : ∃ c rest d t, r = c :: rest ∧ isGoSpace c = true ∧
      rest.dropWhile isGoSpace = d :: t ∧ isWordChar d = true)
    (hv : pyVarCapture l = some w) : False := by
  obtain ⟨c, rest, d, t, rfl, hc, hdt, hd⟩ := htail
  obtain ⟨rv, tv, hw1, hveq⟩ := pyVar_inv hv
  obtain ⟨d0, t0, hl0, hd0⟩ := word1_head hw1
  have hnsp : ¬ (isGoSpace d0 = true) := by
    rw [word_not_space hd0]
    exact Bool.false_ne_true
  have hldrop : l.dropWhile isGoSpace = l := by
    rw [hl0, List.dropWhile_cons, if_neg hnsp]
  rw [hldrop] at hstrip
  have hleq : l = kw.data ++ c :: rest := stripLit_eq hstrip
  have w1c : word1 l = some (kw.data, c :: rest) := by
    rw [hleq]
    exact word1_of_split hkwall hkwne (space_not_word hc)
  have heq := w1c.symm.trans hw1
  injection heq with hpair
  injection hpair with hweq hrv
  rw [← hrv, List.dropWhile_cons, if_pos hc, hdt] at hveq
  injection hveq with hdc _
  rw [hdc] at hd
  exact absurd hd (by decide)

theorem py_fc {l w w' : List Char} (hf : pyFuncCapture l = some w)
    (hc : pyClassCapture l = some w') : False := by
  obtain ⟨r1, h1⟩ := pyFunc_strip hf
  obtain ⟨r2, h2⟩ := pyClass_strip hc
  have e := (stripLit_eq h1).symm.trans (stripLit_eq h2)
  have e' : 'd' :: 'e' :: 'f' :: r1 = 'c' :: 'l' :: 'a' :: 's' :: 's' :: r2 := e
  exact head_clash (by decide) e'

theorem py_fv {l w w' : List Char} (hf : pyFuncCapture l = some w)
    (hv : pyVarCapture l = some w') : False := by
  obtain ⟨r, hs⟩ := pyFunc_strip hf
  have htail : (match dropSpaces1 r with
    | none => none
    | some r2 =>
        match word1 r2 with
        | none => none
        | some (w, r3) =>
            match r3.dropWhile isGoSpace with
            | '(' :: _ => some w
            | _ => none) = some w := by
    unfold pyFuncCapture at hf
    rw [hs] at hf
    exact hf
  exact py_kw_var_clash (by decide) (by decide) hs (pyFuncTail_inv htail) hv

theorem py_cv {l w w' : List Char} (hc : pyClassCapture l = some w)
    (hv : pyVarCapture l = some w') : False := by
  obtain ⟨r, hs⟩ := pyClass_strip hc
  have htail : (match dropSpaces1 r with
    | none => none
    | some r3 =>
        match word1 r3 with
        | none => none
        | some (w, _) => some w) = some w := by
    unfold pyClassCapture at hc
    rw [hs] at hc
    exact hc
  obtain ⟨c, rest, d, t, hr, hcsp, hdt, hd⟩ := kwTail_inv htail
  exact py_kw_var_clash (by decide) (by decide) hs ⟨c, rest, d, t, hr, hcsp, hdt, hd⟩ hv

theorem pyLineSymbols_line {i : Nat} {line : List Char} {s : Symbol}
    (h : s ∈ pyLineSymbols i line) : s.Line = (i : Int) + 1 := by
  unfold pyLineSymbols at h
  rcases List.mem_append.mp h with h1 | h1
  · rcases List.mem_append.mp h1 with h2 | h2
    · exact mem_capture_block h2
    · exact mem_capture_block h2
  · cases hv : pyVarCapture line with
    | none =>
        rw [hv] at h1
        have h2 : s ∈ ([] : List Symbol) := h1
        simp at h2
    | some w =>
        rw [hv] at h1
        simp only [List.mem_singleton] at h1
        rw [h1]

theorem pyLineSymbols_card (i : Nat) (line : List Char) :
    (pyLineSymbols i line).length ≤ 1 := by
  unfold pyLineSymbols
  cases hf : pyFuncCapture line with
  | some w =>
      have hc : pyClassCapture line = none := by
        cases h2 : pyClassCapture line with
        | none => rfl
        | some w2 => exact (py_fc hf h2).elim
      have hv : pyVarCapture line = none := by
        cases h2 : pyVarCapture line with
        | none => rfl
        | some w2 => exact (py_fv hf h2).elim
      rw [hc, hv]
      simp
  | none =>
      cases hc : pyClassCapture line with
      | some w =>
          have hv : pyVarCapture line = none := by
            cases h2 : pyVarCapture line with
            | none => rfl
            | some w2 => exact (py_cv hc h2).elim
          rw [hv]
          simp
      | none =>
          cases hv : pyVarCapture line with
          | some w => simp
          | none => simp

theorem stripCI_head {p : Char} {ps : List Char} {l r : List Char}
    (h : stripCIChars (p :: ps) l = some r) :
    ∃ c cs, l = c :: cs ∧ c.toLower = p.toLower := by
  cases l with
  | nil =>
      have h' : (none : Option (List Char)) = some r := h
      cases h'
  | cons c cs =>
      refine ⟨c, cs, rfl, ?_⟩
      by_cases hc : c.toLower = p.toLower
      · exact hc
      · exfalso
        have h2 : (if c.toLower = p.toLower then stripCIChars ps cs else none) = some r := h
        rw [if_neg hc] at h2
        cases h2

theorem sqlKw_inv {kw : String} {l w : List Char} (h : sqlKwCapture kw l = some w) :
    ∃ r r2 r3, stripCI ("CREATE") (l.dropWhile isGoSpace) = some r ∧
      dropSpaces1 r = some r2 ∧ stripCI kw r2 = some r3 := by
  unfold sqlKwCapture at h
  cases h1 : stripCI ("CREATE") (l.dropWhile isGoSpace) with
  | none =>
      rw [h1] at h
      have h' : (none : Option (List Char)) = some w := h
      cases h'
  | some r =>
      rw [h1] at h
      have h2 : (match dropSpaces1 r with
        | none => none
        | some r2 =>
            match stripCI kw r2 with
            | none => none
            | some r3 =>
                match dropSpaces1 r3 with
                | none => none
                | some r4 =>
                    match word1 r4 with
                    | none => none
                    | some (w, _) => some w) = some w := h
      cases hd : dropSpaces1 r with
      | none =>
          rw [hd] at h2
          have h' : (none : Option (List Char)) = some w := h2
          cases h'
      | some r2 =>
          rw [hd] at h2
          have h3 : (match stripCI kw r2 with
            | none => none
            | some r3 =>
                match dropSpaces1 r3 with
                | none => none
                | some r4 =>
                    match word1 r4 with
                    | none => none
                    | some (w, _) => some w) = some w := h2
          cases hs : stripCI kw r2 with
          | none =>
              rw [hs] at h3
              have h' : (none : Option (List Char)) = some w := h3
              cases h'
          | some r3 => exact ⟨r, r2, r3, rfl, hd, hs⟩

theorem sql_kw_clash {kw1 kw2 : String} {l w w' : List Char}
    {p1 p2 : Char} {ps1 ps2 : List Char}
    (hk1 : kw1.data = p1 :: ps1) (hk2 : kw2.data = p2 :: ps2)
    (hne : p1.toLower ≠ p2.toLower)
    (h1 : sqlKwCapture kw1 l = some w) (h2 : sqlKwCapture kw2 l = some w') : False := by
  obtain ⟨r, r2, r3, hc1, hd1, hs1⟩ := sqlKw_inv h1
  obtain ⟨r', r2', r3', hc2, hd2, hs2⟩ := sqlKw_inv h2
  have hr : r = r' := Option.some.inj (hc1.symm.trans hc2)
  subst hr
  have hr2 : r2 = r2' := Option.some.inj (hd1.symm.trans hd2)
  subst hr2
  unfold stripCI at hs1 hs2
  rw [hk1] at hs1
  rw [hk2] at hs2
  obtain ⟨c, cs, hl1, hlow1⟩ := stripCI_head hs1
  obtain ⟨c', cs', hl2, hlow2⟩ := stripCI_head hs2
  rw [hl1] at hl2
  injection hl2 with hcc _
  rw [← hcc] at hlow2
  exact hne (hlow1.symm.trans hlow2)

theorem sqlFunc_inv {l w : List Char} (h : sqlFuncCapture l = some w) :
    sqlKwCapture ("FUNCTION") l = some w ∨ sqlKwCapture ("PROCEDURE") l = some w := by
  unfold sqlFuncCapture at h
  cases hf : sqlKwCapture ("FUNCTION") l with
  | some w2 =>
      rw [hf] at h
      have h' : some w2 = some w := h
      exact Or.inl h'
  | none =>
      rw [hf] at h
      have h' : sqlKwCapture ("PROCEDURE") l = some w := h
      exact Or.inr h'

theorem sql_tf {l w w' : List Char} (ht : sqlKwCapture ("TABLE") l = some w)
    (hf : sqlFuncCapture l = some w') : False := by
  rcases sqlFunc_inv hf with h | h
  · exact sql_kw_clash rfl rfl (by decide) ht h
  · exact sql_kw_clash rfl rfl (by decide) ht h

theorem sql_tv {l w w' : List Char} (ht : sqlKwCapture ("TABLE") l = some w)
    (hv : sqlKwCapture ("VIEW") l = some w') : False :=
  sql_kw_clash rfl rfl (by decide) ht hv

theorem sql_fv {l w w' : List Char} (hf : sqlFuncCapture l = some w)
    (hv : sqlKwCapture ("VIEW") l = some w') : False := by
  rcases sqlFunc_inv hf with h | h
  · exact sql_kw_clash rfl rfl (by decide) h hv
  · exact sql_kw_clash rfl rfl (by decide) h hv

theorem sqlLineSymbols_line {i : Nat} {line : List Char} {s : Symbol}
    (h : s ∈ sqlLineSymbols i line) : s.Line = (i : Int) + 1 := by
  unfold sqlLineSymbols at h
  rcases List.mem_append.mp h with h1 | h1
  · rcases List.mem_append.mp h1 with h2 | h2
    · exact mem_capture_block h2
    · exact mem_capture_block h2
  · exact mem_capture_block h1

theorem sqlLineSymbols_card (i : Nat) (line : List Char) :
    (sqlLineSymbols i line).length ≤ 1 := by
  unfold sqlLineSymbols
  cases ht : sqlKwCapture ("TABLE") line with
  | some w =>
      have hf : sqlFuncCapture line = none := by
        cases h2 : sqlFuncCapture line with
        | none => rfl
        | some w2 => exact (sql_tf ht h2).elim
      have hv : sqlKwCapture ("VIEW") line = none := by
        cases h2 : sqlKwCapture ("VIEW") line with
        | none => rfl
        | some w2 => exact (sql_tv ht h2).elim
      rw [hf, hv]
      simp
  | none =>
      cases hf : sqlFuncCapture line with
      | some w =>
          have hv : sqlKwCapture ("VIEW") line = none := by
            cases h2 : sqlKwCapture ("VIEW") line with
            | none => rfl
            | some w2 => exact (sql_fv hf h2).elim
          rw [hv]
          simp
      | none =>
          cases hv : sqlKwCapture ("VIEW") line with
          | some w => simp
          | none => simp

theorem enumFrom_line_ge {α : Type} (f : Nat → α → List Symbol)
    (hline : ∀ i a s, s ∈ f i a → s.Line = (i : Int) + 1) :
    ∀ (lines : List α) (n : Nat) (s : Symbol),
      s ∈ ((List.enumFrom n lines).map (fun p => f p.1 p.2)).flatten →
      (n : Int) + 1 ≤ s.Line := by
  intro lines
  induction lines with
  | nil =>
      intro n s h
      simp at h
  | cons a as ih =>
      intro n s h
      rw [List.enumFrom_cons, List.map_cons, List.flatten_cons] at h
      rcases List.mem_append.mp h with h1 | h1
      · have h2 := hline n a s h1
        omega
      · have h2 := ih (n + 1) s h1
        push_cast at h2
        omega

theorem enumFrom_filter_card {α : Type} (f : Nat → α → List Symbol) (k : Int)
    (hline : ∀ i a s, s ∈ f i a → s.Line = (i : Int) + 1)
    (hcard : ∀ i a, (f i a).length ≤ 1) :
    ∀ (lines : List α) (n : Nat),
      (((List.enumFrom n lines).map (fun p => f p.1 p.2)).flatten.filter
        (fun s => s.Line == k)).length ≤ 1 := by
  intro lines
  induction lines with
  | nil =>
      intro n
      simp
  | cons a as ih =>
      intro n
      rw [List.enumFrom_cons, List.map_cons, List.flatten_cons, List.filter_append,
        List.length_append]
      by_cases hk : (n : Int) + 1 = k
      · have htail : (((List.enumFrom (n + 1) as).map (fun p => f p.1 p.2)).flatten.filter
            (fun s => s.Line == k)) = [] := by
          rw [List.filter_eq_nil_iff]
          intro s hs
          have h2 := enumFrom_line_ge f hline as (n + 1) s hs
          push_cast at h2
          simp only [beq_iff_eq]
          omega
        have hhead : ((f n a).filter (fun s => s.Line == k)).length ≤ 1 :=
          le_trans (List.length_filter_le _ _) (hcard n a)
        rw [htail]
        simpa using hhead
      · have hhead : ((f n a).filter (fun s => s.Line == k)) = [] := by
          rw [List.filter_eq_nil_iff]
          intro s hs
          have h2 := hline n a s hs
          simp only [beq_iff_eq]
          omega
        rw [hhead]
        simpa using ih (n + 1)

theorem extractGoSymbols_card (content : List Char) (k : Int) :
    ((extractGoSymbols content).filter (fun s => s.Line == k)).length ≤ 1 :=
  enumFrom_filter_card goLineSymbols k (fun _ _ _ hs => goLineSymbols_line hs)
    (fun i a => goLineSymbols_card i a) (splitNL content) 0

theorem extractJSSymbols_card (content : List Char) (k : Int) :
    ((extractJSSymbols content).filter (fun s => s.Line == k)).length ≤ 1 :=
  enumFrom_filter_card jsLineSymbols k (fun _ _ _ hs => jsLineSymbols_line hs)
    (fun i a => jsLineSymbols_card i a) (splitNL content) 0

theorem extractPythonSymbols_card (content : List Char) (k : Int) :
    ((extractPythonSymbols content).filter (fun s => s.Line == k)).length ≤ 1 :=
  enumFrom_filter_card pyLineSymbols k (fun _ _ _ hs => pyLineSymbols_line hs)
    (fun i a => pyLineSymbols_card i a) (splitNL content) 0

theorem extractSQLSymbols_card (content : List Char) (k : Int) :
    ((extractSQLSymbols content).filter (fun s => s.Line == k)).length ≤ 1 :=
  enumFrom_filter_card sqlLineSymbols k (fun _ _ _ hs => sqlLineSymbols_line hs)
    (fun i a => sqlLineSymbols_card i a) (splitNL content) 0

theorem extractSymbols_card (ext : String) (content : List Char) (k : Int) :
    ((extractSymbols ext content).filter (fun s => s.Line == k)).length ≤ 1 := by
  unfold extractSymbols
  split
  · exact extractGoSymbols_card content k
  · exact extractJSSymbols_card content k
  · exact extractJSSymbols_card content k
  · exact extractJSSymbols_card content k
  · exact extractJSSymbols_card content k
  · exact extractPythonSymbols_card content k
  · exact extractSQLSymbols_card content k
  · simp

/-- C7: the specification asserts that some supported input file has a
single line satisfying more than one category pattern of its
language-family recognizer and hence contributing more than one Symbol
Record for that line.  This is false for the recognizers as written: for
every extension, every content, and every line number, the extracted
symbols carry at most one record on that line. -/
theorem no_line_yields_two_symbols :
    ¬ ∃ (ext : String) (content : List Char) (k : Int),
      1 < ((extractSymbols ext content).filter (fun s => s.Line == k)).length := by
  rintro ⟨ext, content, k, h⟩
  exact absurd h (not_lt.mpr (extractSymbols_card ext content k))

/-- C7 (amended): within each language-family recognizer the category
patterns are pairwise exclusive on every line — the keyword anchors are
mutually exclusive prefixes, the JS method rule is suppressed on lines
containing `function`, and the Python variable rule cannot fire on a
keyword line — so a single line of a supported input file contributes at
most one Symbol Record. -/
theorem symbols_per_line_at_most_one (ext : String) (content : List Char) (k : Int) :
    ((extractSymbols ext content).filter (fun s => s.Line == k)).length ≤ 1 :=
  extractSymbols_card ext content k

end VTK
